import Mathlib

/-!
# kalpix-avatars: the catalog builder and the manifest builder

A shallow embedding of `humanize`, `topCategory`, `buildCatalog` and
`buildSubcategoryList` of `scripts/create_avatars_catalog/main.go`, of
`scanAvatars` and the sort of `main` of `scripts/create_avatars_list/main.go`,
and theorems about them.

Modelling conventions.

* A Go `string` that holds valid UTF-8 (every string here comes out of
  `encoding/json`, which only yields valid UTF-8) is a `List Char`, one `Char`
  per rune.  Go compares strings byte by byte; on valid UTF-8 that is the
  lexicographic order of the code points, which is `lessStr`.
* A Go `map[string]V` is an association list with pairwise distinct keys.
  `m[k]` is `List.lookup`, `m[k] = v` is `mapSet`.
* `for k, v := range m` visits the entries of a map in an order the runtime
  picks.  The one loop whose result depends on that order (the second loop of
  `buildSubcategoryList`) takes the order as a `RangeOrder`.
* `unicode.ToLower` is the code of the Go standard library: the ASCII branch is
  written out, the case table it consults above `MaxASCII` is a parameter
  (`lowerTable`).
* Reading the file and `json.Unmarshal` are outside the embedding:
  `buildCatalog` starts from the decoded `spineAsset`.
* `scanAvatars` starts from the listing `os.ReadDir` returned; `os.Stat` is a
  predicate on the directory and the file name (`FileSystem`).  `sort.Slice` is
  computed by insertion: the sort orders of the entries differ, so the sorted
  slice does not depend on the algorithm.
-/

namespace KalpixAvatars

/-- A Go string holding valid UTF-8, as its runes. -/
abbrev Str := List Char

/-! ## The pieces of the Go standard library the program calls -/

/-- Go `unicode.IsSpace`: the runes with the Unicode White_Space property. -/
def isSpace (c : Char) : Bool :=
  let n := c.toNat
  (0x09 ≤ n && n ≤ 0x0D) || n == 0x20 || n == 0x85 || n == 0xA0 || n == 0x1680 ||
    (0x2000 ≤ n && n ≤ 0x200A) || n == 0x2028 || n == 0x2029 || n == 0x202F ||
    n == 0x205F || n == 0x3000

/-- Go `strings.TrimSpace`: drop the leading and the trailing white space. -/
def TrimSpace (s : Str) : Str :=
  (s.dropWhile isSpace).rdropWhile isSpace

/-- Go `unicode.ToLower`: `r <= MaxASCII` is decided in place, any other rune is
looked up in the case table of the `unicode` package, here `lowerTable`. -/
def toLowerRune (lowerTable : Char → Char) (c : Char) : Char :=
  if c.toNat ≤ 0x7F then
    if 0x41 ≤ c.toNat ∧ c.toNat ≤ 0x5A then Char.ofNat (c.toNat + 32) else c
  else lowerTable c

/-- Go `unicode.ToUpper` on a rune `<= MaxASCII`. -/
def toUpperASCII (c : Char) : Char :=
  if 0x61 ≤ c.toNat ∧ c.toNat ≤ 0x7A then Char.ofNat (c.toNat - 32) else c

/-- Go `strings.ToLower` on valid UTF-8: `unicode.ToLower` on every rune. -/
def ToLower (lowerTable : Char → Char) (s : Str) : Str :=
  s.map (toLowerRune lowerTable)

/-- Go `strings.TrimSuffix(s, "/")`: one trailing `/` is removed. -/
def TrimSuffixSlash (s : Str) : Str :=
  if s.getLast? = some '/' then s.dropLast else s

/-- Go `strings.ReplaceAll(s, "_", " ")`. -/
def ReplaceUnderscores (s : Str) : Str :=
  s.map (fun c => if c = '_' then ' ' else c)

/-- Worker of `Fields`: `cur` is the field being read. -/
def fieldsAux : Str → Str → List Str
  | cur, [] => if cur = [] then [] else [cur]
  | cur, c :: cs =>
    if isSpace c then
      if cur = [] then fieldsAux [] cs else cur :: fieldsAux [] cs
    else fieldsAux (cur ++ [c]) cs

/-- Go `strings.Fields`: the maximal runs of runes that are not white space. -/
def Fields (s : Str) : List Str := fieldsAux [] s

/-- Go `strings.Join(parts, " ")`. -/
def JoinSpace : List Str → Str
  | [] => []
  | [p] => p
  | p :: q :: rest => p ++ ' ' :: JoinSpace (q :: rest)

/-- Go `utf8.RuneLen`: the number of bytes of the UTF-8 encoding of a rune. -/
def runeLen (c : Char) : Nat :=
  if c.toNat < 0x80 then 1 else if c.toNat < 0x800 then 2
  else if c.toNat < 0x10000 then 3 else 4

/-- The bytewise `<` of Go on valid UTF-8 strings: lexicographic on code points. -/
def lessStr : Str → Str → Bool
  | [], [] => false
  | [], _ :: _ => true
  | _ :: _, [] => false
  | a :: as, b :: bs =>
    if a.toNat < b.toNat then true
    else if b.toNat < a.toNat then false
    else lessStr as bs

/-- Insert `x` before the first element that is greater than `x`. -/
def insertStr (x : Str) : List Str → List Str
  | [] => [x]
  | y :: ys => if lessStr y x then y :: insertStr x ys else x :: y :: ys

/-- Go `sort.Strings`.  The order on strings is total and two strings that
compare equal are the same string, so the sorted slice is determined by its
input whatever the sorting algorithm; it is computed here by insertion. -/
def sortStrings : List Str → List Str
  | [] => []
  | x :: xs => insertStr x (sortStrings xs)

/-- Go `fmt.Sprintf("%d", n)` for `n >= 0`. -/
def decimal (n : Nat) : Str := Nat.toDigits 10 n

/-- Go `m[k] = v` on a map kept as an association list. -/
def mapSet {β : Type} : List (Str × β) → Str → β → List (Str × β)
  | [], k, v => [(k, v)]
  | (k', v') :: rest, k, v =>
    if k' = k then (k', v) :: rest else (k', v') :: mapSet rest k v

/-- The keys of a map. -/
def keys {β : Type} (m : List (Str × β)) : List Str := m.map Prod.fst

/-- The subcategory key to option ids table, `map[string][]string`. -/
abbrev Table := List (Str × List Str)

/-- The order in which one `for k, opts := range all` loop visits a map: every
entry once, in an order of the runtime's choosing. -/
structure RangeOrder where
  order : Table → Table
  perm : ∀ m, (order m).Perm m

/-- The range order that visits the entries as they are stored. -/
def RangeOrder.stored : RangeOrder := ⟨fun m => m, fun m => List.Perm.refl m⟩

/-- The range order that visits the entries last to first. -/
def RangeOrder.reversed : RangeOrder := ⟨List.reverse, List.reverse_perm⟩

/-! ## The program -/

/-- The Go struct `spineAsset`: the skin names in the order of the JSON array
and the keys of the `animations` object (`none` for a nil map) in the order the
range loop over the map yields them. -/
structure spineAsset where
  Skins : List Str
  Animations : Option (List Str)

/-- The Go struct `optionOut`; an empty `SkinName` or `PreviewURL` is left out
of the JSON (`omitempty`). -/
structure optionOut where
  OptionID : Str
  Label : Str
  SkinName : Str
  PreviewURL : Str
deriving DecidableEq, Repr

/-- The Go struct `subcategoryOut`. -/
structure subcategoryOut where
  Key : Str
  Label : Str
  Options : List optionOut
deriving DecidableEq, Repr

/-- The Go struct `categoryOut`. -/
structure categoryOut where
  Key : Str
  Label : Str
  Subcategories : List subcategoryOut
deriving DecidableEq, Repr

/-- The Go struct `catalogOutput`. -/
structure catalogOutput where
  Slug : Str
  AvatarName : Str
  Categories : List categoryOut
deriving DecidableEq, Repr

/-- The body of the loop of `humanize` on one field `p`:
`strings.ToUpper(p[:1]) + strings.ToLower(p[1:])`.  The slices cut at byte 1.
When the first rune is ASCII that is the first rune and the rest.  Otherwise
`p[:1]` is the lead byte of the first rune and `p[1:]` starts with its
`runeLen - 1` continuation bytes: `strings.Map` writes U+FFFD for each of these
bytes, none of which is valid UTF-8 on its own. -/
def humanizeWord (lowerTable : Char → Char) : Str → Str
  | [] => []
  | c :: rest =>
    if c.toNat < 0x80 then toUpperASCII c :: ToLower lowerTable rest
    else List.replicate (runeLen c) (Char.ofNat 0xFFFD) ++ ToLower lowerTable rest

/-- Go `humanize`. -/
def humanize (lowerTable : Char → Char) (s : Str) : Str :=
  if s = [] then s
  else JoinSpace ((Fields (ReplaceUnderscores s)).map (humanizeWord lowerTable))

/-- Go `topCategory`. -/
def topCategory (lowerTable : Char → Char) (subKey : Str) : Str :=
  let lower := ToLower lowerTable subKey
  if lower = "dress".toList ∨ lower = "shoes".toList ∨ lower = "watch".toList ∨
      lower = "fan".toList then "fashion".toList
  else if lower = "eyebrow".toList ∨ lower = "eyes".toList ∨ lower = "face".toList ∨
      lower = "hair".toList ∨ lower = "lips".toList then "body".toList
  else if lower = "animation".toList then "animation".toList
  else "body".toList

/-- Go `bodyOrder`. -/
def bodyOrder : List Str :=
  ["eyebrow".toList, "eyes".toList, "face".toList, "Hair".toList, "hair".toList,
    "lips".toList]

/-- Go `fashionOrder`. -/
def fashionOrder : List Str :=
  ["dress".toList, "shoes".toList, "watch".toList, "fan".toList]

/-- The body of the loop over `asset.Skins` in `buildCatalog` (lines 156-178):
one skin name is parsed and, when it is a taxonomy skin that is new, added. -/
def skinStep (lowerTable : Char → Char) (subcategoryOptions : Table) (skinName : Str) :
    Table :=
  let name := TrimSpace skinName
  if name = [] ∨ ToLower lowerTable name = "default".toList then subcategoryOptions
  else if ¬ '/' ∈ name then subcategoryOptions
  else
    let left := TrimSpace (name.takeWhile (fun c => c != '/'))
    let right := TrimSpace ((name.dropWhile (fun c => c != '/')).drop 1)
    if left = [] ∨ right = [] then subcategoryOptions
    else
      let opts := (subcategoryOptions.lookup left).getD []
      if right ∈ opts then subcategoryOptions
      else mapSet subcategoryOptions left (opts ++ [right])

/-- The loop over `asset.Skins` in `buildCatalog` (lines 154-179). -/
def skinTable (lowerTable : Char → Char) (skins : List Str) : Table :=
  skins.foldl (skinStep lowerTable) []

/-- The slice `animOpts` of `buildCatalog` (lines 183-188), before it is sorted. -/
def animOpts (lowerTable : Char → Char) (animations : List Str) : List Str :=
  animations.filter (fun k => decide (TrimSpace (ToLower lowerTable k) ≠ "default".toList))

/-- The block on `asset.Animations` in `buildCatalog` (lines 182-193). -/
def addAnimations (lowerTable : Char → Char) (subcategoryOptions : Table) :
    Option (List Str) → Table
  | none => subcategoryOptions
  | some animations =>
    if 0 < (animOpts lowerTable animations).length then
      mapSet subcategoryOptions "animation".toList (sortStrings (animOpts lowerTable animations))
    else subcategoryOptions

/-- The loop that sorts every option list of the table (lines 195-197). -/
def sortTable (subcategoryOptions : Table) : Table :=
  subcategoryOptions.map (fun e => (e.1, sortStrings e.2))

/-- The table `subcategoryOptions` of `buildCatalog` once lines 154-197 have run. -/
def buildTable (lowerTable : Char → Char) (asset : spineAsset) : Table :=
  sortTable (addAnimations lowerTable (skinTable lowerTable asset.Skins) asset.Animations)

/-- The three maps `bodySubs`, `fashionSubs`, `animationSubs` (lines 199-213):
the entries of the table whose `topCategory` is `cat`.  `topCategory` returns
one of the three keys, so the `default` arm of the switch is never taken. -/
def bucket (lowerTable : Char → Char) (cat : Str) (subcategoryOptions : Table) : Table :=
  subcategoryOptions.filter (fun e => decide (topCategory lowerTable e.1 = cat))

/-- The value of `previewBase` (lines 215-218). -/
def previewBaseOf (slug cdnBase : Str) : Str :=
  if cdnBase ≠ [] then TrimSuffixSlash cdnBase ++ "/catalog/".toList ++ slug else []

/-- The option built by one turn of the inner loop of `buildSubcategoryList`
(lines 261-269 and, letter for letter the same, 280-288); `i` is the 0-based
index of `oid` in `opts`. -/
def renderOption (lowerTable : Char → Char) (k slug previewBase : Str) (isAnimation : Bool)
    (i : Nat) (oid : Str) : optionOut :=
  if !isAnimation then
    { OptionID := oid, Label := humanize lowerTable oid,
      SkinName := k ++ "/".toList ++ oid,
      PreviewURL :=
        if previewBase ≠ [] then
          previewBase ++ "/".toList ++ k ++ "/".toList ++ oid ++ ".webp".toList
        else
          "catalog/".toList ++ slug ++ "/".toList ++ k ++ "/".toList ++ decimal (i + 1) ++
            ".webp".toList }
  else { OptionID := oid, Label := humanize lowerTable oid, SkinName := [], PreviewURL := [] }

/-- The inner loop `for i, oid := range opts` from index `i` on. -/
def renderOptionsFrom (lowerTable : Char → Char) (k slug previewBase : Str)
    (isAnimation : Bool) : Nat → List Str → List optionOut
  | _, [] => []
  | i, oid :: rest =>
    renderOption lowerTable k slug previewBase isAnimation i oid ::
      renderOptionsFrom lowerTable k slug previewBase isAnimation (i + 1) rest

/-- The subcategory appended to `result` for key `k` with options `opts`. -/
def renderSubcategory (lowerTable : Char → Char) (slug previewBase : Str) (isAnimation : Bool)
    (k : Str) (opts : List Str) : subcategoryOut :=
  { Key := k, Label := k,
    Options := renderOptionsFrom lowerTable k slug previewBase isAnimation 0 opts }

/-- The first loop of `buildSubcategoryList` (lines 253-273), from the state
`(seen, result)` on: the keys of `order` that are in `all`, each once. -/
def orderedLoop (lowerTable : Char → Char) (all : Table) (slug previewBase : Str)
    (isAnimation : Bool) : List Str → List Str → List subcategoryOut →
    List Str × List subcategoryOut
  | [], seen, result => (seen, result)
  | k :: order, seen, result =>
    match all.lookup k with
    | none => orderedLoop lowerTable all slug previewBase isAnimation order seen result
    | some opts =>
      if k ∈ seen then
        orderedLoop lowerTable all slug previewBase isAnimation order seen result
      else
        orderedLoop lowerTable all slug previewBase isAnimation order (k :: seen)
          (result ++ [renderSubcategory lowerTable slug previewBase isAnimation k opts])

/-- The second loop of `buildSubcategoryList` (lines 274-292) over the entries
in the order `visit` in which the range loop yields them. -/
def leftoverLoop (lowerTable : Char → Char) (slug previewBase : Str) (isAnimation : Bool)
    (seen : List Str) : Table → List subcategoryOut → List subcategoryOut
  | [], result => result
  | (k, opts) :: visit, result =>
    if k ∈ seen then leftoverLoop lowerTable slug previewBase isAnimation seen visit result
    else
      leftoverLoop lowerTable slug previewBase isAnimation seen visit
        (result ++ [renderSubcategory lowerTable slug previewBase isAnimation k opts])

/-- Go `buildSubcategoryList`. -/
def buildSubcategoryList (lowerTable : Char → Char) (ρ : RangeOrder) (order : List Str)
    (all : Table) (slug previewBase : Str) (isAnimation : Bool) : List subcategoryOut :=
  let st := orderedLoop lowerTable all slug previewBase isAnimation order [] []
  leftoverLoop lowerTable slug previewBase isAnimation st.1 (ρ.order all) st.2

/-- The slice `categories` of `buildCatalog` (lines 220-241). -/
def buildCategories (lowerTable : Char → Char) (ρ : RangeOrder) (subcategoryOptions : Table)
    (slug previewBase : Str) : List categoryOut :=
  let bodySubs := bucket lowerTable "body".toList subcategoryOptions
  let fashionSubs := bucket lowerTable "fashion".toList subcategoryOptions
  let animationSubs := bucket lowerTable "animation".toList subcategoryOptions
  (if 0 < bodySubs.length then
    [{ Key := "body".toList, Label := "Body".toList,
       Subcategories :=
        buildSubcategoryList lowerTable ρ bodyOrder bodySubs slug previewBase false }]
   else []) ++
  (if 0 < fashionSubs.length then
    [{ Key := "fashion".toList, Label := "Fashion".toList,
       Subcategories :=
        buildSubcategoryList lowerTable ρ fashionOrder fashionSubs slug previewBase false }]
   else []) ++
  (if 0 < animationSubs.length then
    [{ Key := "animation".toList, Label := "Animation".toList,
       Subcategories :=
        buildSubcategoryList lowerTable ρ ["animation".toList] animationSubs slug
          previewBase true }]
   else [])

/-- Go `buildCatalog`, from the decoded asset on (lines 153-247). -/
def buildCatalog (lowerTable : Char → Char) (ρ : RangeOrder) (asset : spineAsset)
    (slug avatarName cdnBase : Str) : catalogOutput :=
  { Slug := slug, AvatarName := avatarName,
    Categories :=
      buildCategories lowerTable ρ (buildTable lowerTable asset) slug
        (previewBaseOf slug cdnBase) }

/-! ## Definitions used to state the properties -/

/-- The option list of key `k` in a table, empty when the key is absent. -/
def optionsOf (m : Table) (k : Str) : List Str := (m.lookup k).getD []

/-- The parse of one skin name made by the loop over `asset.Skins`: the pair
`(left, right)` when the name passes every `continue` of lines 156-167. -/
def parseSkin (lowerTable : Char → Char) (skinName : Str) : Option (Str × Str) :=
  let name := TrimSpace skinName
  if name = [] ∨ ToLower lowerTable name = "default".toList then none
  else if ¬ '/' ∈ name then none
  else
    let left := TrimSpace (name.takeWhile (fun c => c != '/'))
    let right := TrimSpace ((name.dropWhile (fun c => c != '/')).drop 1)
    if left = [] ∨ right = [] then none else some (left, right)

/-- The words of the specification: `n` is a taxonomy skin of subcategory `sub`
and option `opt`.  With `t` the name trimmed, `t` is not `default` in any case,
contains a `/`, and `sub` and `opt` are the trimmed, non-empty texts before and
after the first `/` of `t`. -/
def IsTaxonomySkin (lowerTable : Char → Char) (n sub opt : Str) : Prop :=
  ToLower lowerTable (TrimSpace n) ≠ "default".toList ∧ '/' ∈ TrimSpace n ∧
    ∃ pre post, TrimSpace n = pre ++ '/' :: post ∧ '/' ∉ pre ∧
      sub = TrimSpace pre ∧ opt = TrimSpace post ∧ sub ≠ [] ∧ opt ≠ []

/-- A list of strings in ascending order, equal neighbours allowed. -/
def Ascending (l : List Str) : Prop := l.Pairwise (fun a b => lessStr b a = false)

/-- A list of strings in strictly ascending order. -/
def StrictAscending (l : List Str) : Prop := l.Pairwise (fun a b => lessStr a b = true)

/-- The elements of a list in the order of their first occurrence, each once. -/
def firstOccurrences : List Str → List Str
  | [] => []
  | x :: xs => x :: (firstOccurrences xs).filter (fun y => decide (y ≠ x))

/-- The three blocks of lines 221-241 as data: the key and the label of the
category, the canonical order passed to `buildSubcategoryList` and the value of
`isAnimation`. -/
def categoryPlan : List (Str × Str × List Str × Bool) :=
  [("body".toList, "Body".toList, bodyOrder, false),
    ("fashion".toList, "Fashion".toList, fashionOrder, false),
    ("animation".toList, "Animation".toList, ["animation".toList], true)]

/-- One block of lines 221-241: the category of plan `p`, when its map is not
empty. -/
def renderCategory (lowerTable : Char → Char) (ρ : RangeOrder) (subcategoryOptions : Table)
    (slug previewBase : Str) (p : Str × Str × List Str × Bool) : Option categoryOut :=
  if 0 < (bucket lowerTable p.1 subcategoryOptions).length then
    some { Key := p.1, Label := p.2.1,
           Subcategories :=
            buildSubcategoryList lowerTable ρ p.2.2.1 (bucket lowerTable p.1 subcategoryOptions)
              slug previewBase p.2.2.2 }
  else none

/-- The words of the specification for `humanize`: every underscore becomes a
space, the text is split on white space into its non-empty words, every word
becomes its first character upper-cased (by `upper`) followed by the rest
lower-cased (by `lower`), and the words are joined with single spaces. -/
def humanizeSpec (upper lower : Char → Char) (s : Str) : Str :=
  JoinSpace ((Fields (ReplaceUnderscores s)).map (fun w =>
    match w with
    | [] => []
    | c :: rest => upper c :: rest.map lower))

/-- An ASCII upper-case letter. -/
def isUpperASCII (c : Char) : Bool := decide (0x41 ≤ c.toNat ∧ c.toNat ≤ 0x5A)

/-- An ASCII lower-case letter. -/
def isLowerASCII (c : Char) : Bool := decide (0x61 ≤ c.toNat ∧ c.toNat ≤ 0x7A)

/-! ## The manifest builder (`scripts/create_avatars_list/main.go`)

`humanize` of this program is, letter for letter, the `humanize` above. -/

/-- The Go struct `ManifestEntry`; an empty URL is left out of the JSON.
`SortOrder` is a Go `int`: it counts directory entries and stays far below
`2^63`, so it is a natural number here. -/
structure ManifestEntry where
  Slug : Str
  AvatarName : Str
  PreviewURL : Str
  BaseAtlasURL : Str
  BaseJSONURL : Str
  BasePNGURL : Str
  CatalogURL : Str
  IsActive : Bool
  SortOrder : Nat
deriving DecidableEq, Repr

/-- One `os.DirEntry` of the listing `os.ReadDir(avatarsDir)` returns. -/
structure DirEntry where
  Name : Str
  IsDir : Bool
deriving DecidableEq, Repr

/-- The file system as `scanAvatars` sees it: `stat slug file` is `true` when
`os.Stat(filepath.Join(avatarsDir, slug, file))` returns no error. -/
abbrev FileSystem := Str → Str → Bool

/-- Lines 108-117 of `scanAvatars`: the file name of `txtPath` after the block,
or `none` when the `continue` of line 114 is taken. -/
def probeFiles (stat : FileSystem) (slug : Str) : Option Str :=
  if stat slug (slug ++ ".json".toList) = false then
    if stat slug (slug ++ ".atlas.txt".toList) = false then none
    else some (slug ++ ".atlas.txt".toList)
  else some (slug ++ ".txt".toList)

/-- Lines 119-146 of `scanAvatars`: the entry of directory `slug`. -/
def makeEntry (lowerTable : Char → Char) (stat : FileSystem)
    (baseURL assetsBase catalogBase slug txtPath : Str) (sortOrder : Nat) : ManifestEntry :=
  if baseURL ≠ [] then
    { Slug := slug, AvatarName := humanize lowerTable slug, IsActive := true,
      SortOrder := sortOrder,
      PreviewURL := assetsBase ++ "/".toList ++ slug ++ "/".toList ++ slug ++ ".png".toList,
      BaseAtlasURL :=
        if stat slug txtPath = false ∧ stat slug (slug ++ ".atlas.txt".toList) = true then
          assetsBase ++ "/".toList ++ slug ++ "/".toList ++ slug ++ ".atlas.txt".toList
        else assetsBase ++ "/".toList ++ slug ++ "/".toList ++ slug ++ ".txt".toList,
      BaseJSONURL := assetsBase ++ "/".toList ++ slug ++ "/".toList ++ slug ++ ".json".toList,
      BasePNGURL := assetsBase ++ "/".toList ++ slug ++ "/".toList ++ slug ++ ".png".toList,
      CatalogURL := catalogBase ++ "/".toList ++ slug ++ ".json".toList }
  else
    { Slug := slug, AvatarName := humanize lowerTable slug, IsActive := true,
      SortOrder := sortOrder, PreviewURL := [], BaseAtlasURL := [], BaseJSONURL := [],
      BasePNGURL := [], CatalogURL := [] }

/-- The loop of `scanAvatars` over the listing (lines 103-149), from the state
`(sortOrder, entries)` on. -/
def scanLoop (lowerTable : Char → Char) (stat : FileSystem)
    (baseURL assetsBase catalogBase : Str) :
    List DirEntry → Nat → List ManifestEntry → List ManifestEntry
  | [], _, entries => entries
  | d :: dirs, sortOrder, entries =>
    if d.IsDir = false then
      scanLoop lowerTable stat baseURL assetsBase catalogBase dirs sortOrder entries
    else
      match probeFiles stat d.Name with
      | none => scanLoop lowerTable stat baseURL assetsBase catalogBase dirs sortOrder entries
      | some txtPath =>
        scanLoop lowerTable stat baseURL assetsBase catalogBase dirs (sortOrder + 1)
          (entries ++
            [makeEntry lowerTable stat baseURL assetsBase catalogBase d.Name txtPath sortOrder])

/-- Go `scanAvatars`, from the listing `os.ReadDir` returned on. -/
def scanAvatars (lowerTable : Char → Char) (stat : FileSystem) (dirs : List DirEntry)
    (baseURL : Str) : List ManifestEntry :=
  scanLoop lowerTable stat (TrimSuffixSlash baseURL)
    (TrimSuffixSlash baseURL ++ "/avatars".toList)
    (TrimSuffixSlash baseURL ++ "/catalog".toList) dirs 1 []

/-- The `less` function `main` passes to `sort.Slice` (lines 67-72). -/
def lessEntry (a b : ManifestEntry) : Bool :=
  if a.SortOrder ≠ b.SortOrder then decide (a.SortOrder < b.SortOrder)
  else lessStr a.AvatarName b.AvatarName

/-- Insert `x` before the first entry that is not less than `x`. -/
def insertEntry (x : ManifestEntry) : List ManifestEntry → List ManifestEntry
  | [] => [x]
  | y :: ys => if lessEntry y x then y :: insertEntry x ys else x :: y :: ys

/-- The call of `sort.Slice` in `main`, computed by insertion. -/
def sortEntries : List ManifestEntry → List ManifestEntry
  | [] => []
  | x :: xs => insertEntry x (sortEntries xs)

/-- The manifest `main` writes: none when no avatar was found (`main` exits with
status 1), the sorted entries otherwise. -/
def manifest (lowerTable : Char → Char) (stat : FileSystem) (dirs : List DirEntry)
    (baseURL : Str) : Option (List ManifestEntry) :=
  if (scanAvatars lowerTable stat dirs baseURL).length = 0 then none
  else some (sortEntries (scanAvatars lowerTable stat dirs baseURL))

/-- The two entries are in the order the manifest is to have: by `SortOrder`,
and by `AvatarName` when the `SortOrder` is the same. -/
def EntryOrdered (a b : ManifestEntry) : Prop :=
  a.SortOrder < b.SortOrder ∨
    (a.SortOrder = b.SortOrder ∧ lessStr b.AvatarName a.AvatarName = false)

/-- What lines 104-117 of `scanAvatars` come to: the entry of the listing is a
directory, and its `.json` or its `.atlas.txt` is there. -/
def isScanned (stat : FileSystem) (d : DirEntry) : Bool :=
  d.IsDir && (stat d.Name (d.Name ++ ".json".toList) ||
    stat d.Name (d.Name ++ ".atlas.txt".toList))

/-- The number a list of decimal digits writes, most significant digit first. -/
def decimalValue (ds : List Char) : Nat :=
  ds.foldl (fun a c => a * 10 + (c.toNat - 48)) 0


/-! ## Maps as association lists -/

theorem lookup_cons_eq {β : Type} (k : Str) (b : β) (rest : List (Str × β)) :
    List.lookup k ((k, b) :: rest) = some b := by
  simp [List.lookup]

theorem lookup_cons_ne {β : Type} (k a : Str) (b : β) (rest : List (Str × β)) (h : k ≠ a) :
    List.lookup k ((a, b) :: rest) = List.lookup k rest := by
  have hb : (k == a) = false := by simpa using h
  simp [List.lookup, hb]

theorem lookup_mapSet {β : Type} (m : List (Str × β)) (k : Str) (v : β) (k' : Str) :
    (mapSet m k v).lookup k' = if k' = k then some v else m.lookup k' := by
  induction m with
  | nil =>
    by_cases h : k' = k
    · subst h; simp [mapSet, lookup_cons_eq]
    · simp [mapSet, lookup_cons_ne _ _ _ _ h, h]
  | cons e rest ih =>
    obtain ⟨a, b⟩ := e
    by_cases hak : a = k
    · subst hak
      by_cases h : k' = a
      · subst h; simp [mapSet, lookup_cons_eq]
      · simp [mapSet, lookup_cons_ne _ _ _ _ h, h]
    · by_cases h2 : k' = a
      · subst h2
        have : ¬ k' = k := hak
        simp [mapSet, hak, lookup_cons_eq, this]
      · simp [mapSet, hak, lookup_cons_ne _ _ _ _ h2, ih]

theorem split_first_slash (t : Str) (h : '/' ∈ t) :
    t = t.takeWhile (fun c => c != '/') ++ '/' :: (t.dropWhile (fun c => c != '/')).drop 1 := by
  induction t with
  | nil => simp at h
  | cons c cs ih =>
    by_cases hc : c = '/'
    · subst hc; simp [List.takeWhile, List.dropWhile]
    · have : '/' ∈ cs := by
        rcases List.mem_cons.1 h with h | h
        · exact absurd h.symm hc
        · exact h
      have ih := ih this
      have hb : (c != '/') = true := by simpa using hc
      rw [List.takeWhile_cons, List.dropWhile_cons]
      simp only [hb, if_true, List.cons_append]
      exact congrArg (c :: ·) ih

theorem split_first_slash_unique (pre post : Str) (h : '/' ∉ pre) :
    (pre ++ '/' :: post).takeWhile (fun c => c != '/') = pre ∧
    ((pre ++ '/' :: post).dropWhile (fun c => c != '/')).drop 1 = post := by
  induction pre with
  | nil => simp [List.takeWhile, List.dropWhile]
  | cons c cs ih =>
    have hc : c ≠ '/' := fun e => h (by simp [e])
    have hcs : '/' ∉ cs := fun e => h (by simp [e])
    have ih := ih hcs
    have hb : (c != '/') = true := by simpa using hc
    rw [List.cons_append, List.takeWhile_cons, List.dropWhile_cons]
    simp only [hb, if_true]
    exact ⟨congrArg (c :: ·) ih.1, ih.2⟩

/-! ## The skin loop -/

theorem skinStep_eq (lowerTable : Char → Char) (m : Table) (n : Str) :
    skinStep lowerTable m n =
      match parseSkin lowerTable n with
      | none => m
      | some (l, r) =>
        if r ∈ optionsOf m l then m else mapSet m l (optionsOf m l ++ [r]) := by
  unfold skinStep parseSkin optionsOf
  simp only []
  split_ifs with h1 h2 h3 h4 <;> first | rfl | (simp only []; first | rw [if_pos h4] | rw [if_neg h4])

theorem parseSkin_eq_some_iff (lowerTable : Char → Char) (n sub opt : Str) :
    parseSkin lowerTable n = some (sub, opt) ↔ IsTaxonomySkin lowerTable n sub opt := by
  unfold parseSkin IsTaxonomySkin
  simp only []
  constructor
  · intro h
    split_ifs at h with h1 h2 h3
    · push_neg at h1
      simp only [not_not] at h2
      simp only [Option.some.injEq, Prod.mk.injEq] at h
      push_neg at h3
      refine ⟨h1.2, h2, _, _, split_first_slash _ h2, ?_, h.1.symm, h.2.symm, ?_, ?_⟩
      · intro hm
        have := (List.mem_takeWhile_imp hm)
        simp at this
      · rw [← h.1]; exact h3.1
      · rw [← h.2]; exact h3.2
  · rintro ⟨hd, hs, pre, post, ht, hpre, rfl, rfl, hl, hr⟩
    have hu := split_first_slash_unique pre post hpre
    rw [← ht] at hu
    have hne : TrimSpace n ≠ [] := by
      intro e; rw [e] at hs; simp at hs
    rw [if_neg (by push_neg; exact ⟨hne, hd⟩), if_neg (by simpa using hs), hu.1, hu.2,
      if_neg (by push_neg; exact ⟨hl, hr⟩)]

theorem optionsOf_mapSet (m : Table) (k : Str) (v : List Str) (k' : Str) :
    optionsOf (mapSet m k v) k' = if k' = k then v else optionsOf m k' := by
  unfold optionsOf
  rw [lookup_mapSet]
  split_ifs <;> rfl

theorem mem_optionsOf_skinStep (lowerTable : Char → Char) (m : Table) (n sub opt : Str) :
    opt ∈ optionsOf (skinStep lowerTable m n) sub ↔
      opt ∈ optionsOf m sub ∨ parseSkin lowerTable n = some (sub, opt) := by
  rw [skinStep_eq]
  cases hp : parseSkin lowerTable n with
  | none => simp
  | some p =>
    obtain ⟨l, r⟩ := p
    simp only [Option.some.injEq, Prod.mk.injEq]
    by_cases hr : r ∈ optionsOf m l
    · rw [if_pos hr]
      constructor
      · exact Or.inl
      · rintro (h | ⟨rfl, rfl⟩)
        · exact h
        · exact hr
    · rw [if_neg hr, optionsOf_mapSet]
      by_cases hs : sub = l
      · subst hs
        simp only [if_true, List.mem_append, List.mem_singleton, true_and]
        constructor
        · rintro (h | h)
          · exact Or.inl h
          · exact Or.inr h.symm
        · rintro (h | h)
          · exact Or.inl h
          · exact Or.inr h.symm
      · rw [if_neg hs]
        constructor
        · exact Or.inl
        · rintro (h | ⟨h, _⟩)
          · exact h
          · exact absurd h.symm hs

theorem mem_optionsOf_foldl_skinStep (lowerTable : Char → Char) (skins : List Str) :
    ∀ (m : Table) (sub opt : Str),
      opt ∈ optionsOf (skins.foldl (skinStep lowerTable) m) sub ↔
        opt ∈ optionsOf m sub ∨ ∃ n ∈ skins, parseSkin lowerTable n = some (sub, opt) := by
  induction skins with
  | nil => intro m sub opt; simp
  | cons n rest ih =>
    intro m sub opt
    rw [List.foldl_cons, ih, mem_optionsOf_skinStep]
    simp only [List.mem_cons, exists_eq_or_imp]
    tauto

theorem mem_optionsOf_iff (m : Table) (sub opt : Str) :
    opt ∈ optionsOf m sub ↔ ∃ opts, m.lookup sub = some opts ∧ opt ∈ opts := by
  unfold optionsOf
  cases h : m.lookup sub with
  | none => simp
  | some v => simp

/-- C1.  In the table the loop over the skins builds, `opt` is among the
options of key `sub` exactly when some skin name is a taxonomy skin of
subcategory `sub` and option `opt` (trimmed, not `default` in any case, holding
a `/`, `sub` and `opt` the trimmed non-empty texts before and after its first
`/`); and the names `default`, `Default`, one blank, `noSlash`, `/onlyRight`
and `onlyLeft/` leave every table as it was. -/
theorem skinTable_option_iff (lowerTable : Char → Char) (skins : List Str) (sub opt : Str) :
    ((∃ opts, (skinTable lowerTable skins).lookup sub = some opts ∧ opt ∈ opts) ↔
      ∃ n ∈ skins, IsTaxonomySkin lowerTable n sub opt) ∧
    (∀ n ∈ ["default".toList, "Default".toList, " ".toList, "noSlash".toList,
        "/onlyRight".toList, "onlyLeft/".toList],
      ∀ m : Table, skinStep lowerTable m n = m) := by
  constructor
  · rw [← mem_optionsOf_iff, skinTable, mem_optionsOf_foldl_skinStep]
    simp only [parseSkin_eq_some_iff]
    simp [optionsOf]
  · intro n hn m
    simp only [List.mem_cons, List.mem_singleton, List.not_mem_nil, or_false] at hn
    rcases hn with rfl | rfl | rfl | rfl | rfl | rfl <;> rfl

/-! ## The order on strings and `sort.Strings` -/

theorem char_eq_of_toNat_eq {a b : Char} (h : a.toNat = b.toNat) : a = b := by
  apply Char.ext
  apply UInt32.toNat.inj
  exact h

theorem lessStr_irrefl (a : Str) : lessStr a a = false := by
  induction a with
  | nil => rfl
  | cons c cs ih => simp [lessStr, ih]

theorem lessStr_trans : ∀ (a b c : Str), lessStr a b = true → lessStr b c = true →
    lessStr a c = true := by
  intro a
  induction a with
  | nil =>
    intro b c hab hbc
    cases b with
    | nil => simp [lessStr] at hab
    | cons y ys =>
      cases c with
      | nil => simp [lessStr] at hbc
      | cons z zs => rfl
  | cons x xs ih =>
    intro b c hab hbc
    cases b with
    | nil => simp [lessStr] at hab
    | cons y ys =>
      cases c with
      | nil => simp [lessStr] at hbc
      | cons z zs =>
        simp only [lessStr] at hab hbc ⊢
        split_ifs at hab hbc ⊢ with h1 h2 h3 h4 h5 h6 <;>
          first
          | rfl
          | omega
          | exact ih _ _ hab hbc

theorem eq_of_not_lessStr : ∀ (a b : Str), lessStr a b = false → lessStr b a = false →
    a = b := by
  intro a
  induction a with
  | nil =>
    intro b hab hba
    cases b with
    | nil => rfl
    | cons y ys => simp [lessStr] at hab
  | cons x xs ih =>
    intro b hab hba
    cases b with
    | nil => simp [lessStr] at hba
    | cons y ys =>
      simp only [lessStr] at hab hba
      split_ifs at hab hba with h1 h2
      have hxy : x = y := char_eq_of_toNat_eq (by omega)
      rw [hxy, ih ys hab hba]

theorem lessStr_asymm (a b : Str) (h : lessStr a b = true) : lessStr b a = false := by
  cases hba : lessStr b a with
  | false => rfl
  | true =>
    have := lessStr_trans a b a h hba
    rw [lessStr_irrefl] at this
    exact absurd this (by simp)

theorem not_lessStr_trans (a b c : Str) (hab : lessStr b a = false) (hbc : lessStr c b = false) :
    lessStr c a = false := by
  cases hca : lessStr c a with
  | false => rfl
  | true =>
    cases hba : lessStr a b with
    | false =>
      have e := eq_of_not_lessStr a b hba hab
      subst e
      rw [hca] at hbc
      exact absurd hbc (by simp)
    | true =>
      have := lessStr_trans c a b hca hba
      rw [this] at hbc
      exact absurd hbc (by simp)

theorem insertStr_perm (x : Str) (l : List Str) : (insertStr x l).Perm (x :: l) := by
  induction l with
  | nil => exact List.Perm.refl _
  | cons y ys ih =>
    unfold insertStr
    split_ifs
    · exact (List.Perm.cons y ih).trans (List.Perm.swap x y ys)
    · exact List.Perm.refl _

theorem sortStrings_perm (l : List Str) : (sortStrings l).Perm l := by
  induction l with
  | nil => exact List.Perm.refl _
  | cons x xs ih => exact (insertStr_perm x _).trans (List.Perm.cons x ih)

theorem insertStr_ascending (x : Str) (l : List Str) (h : Ascending l) :
    Ascending (insertStr x l) := by
  induction l with
  | nil => simp [insertStr, Ascending]
  | cons y ys ih =>
    unfold Ascending at h ih ⊢
    rw [List.pairwise_cons] at h
    unfold insertStr
    split_ifs with hyx
    · rw [List.pairwise_cons]
      refine ⟨?_, ih h.2⟩
      intro z hz
      rcases List.mem_cons.1 ((insertStr_perm x ys).mem_iff.1 hz) with rfl | hz
      · exact lessStr_asymm _ _ hyx
      · exact h.1 z hz
    · rw [List.pairwise_cons]
      refine ⟨?_, List.pairwise_cons.2 h⟩
      intro z hz
      have hyx : lessStr y x = false := by simpa using hyx
      rcases List.mem_cons.1 hz with rfl | hz
      · exact hyx
      · exact not_lessStr_trans x y z hyx (h.1 z hz)

theorem sortStrings_ascending (l : List Str) : Ascending (sortStrings l) := by
  induction l with
  | nil => simp [sortStrings, Ascending]
  | cons x xs ih => exact insertStr_ascending x _ ih

theorem strictAscending_of_nodup (l : List Str) (h : Ascending l) (hn : l.Nodup) :
    StrictAscending l := by
  unfold StrictAscending
  unfold Ascending at h
  have hp : l.Pairwise (fun a b => lessStr b a = false ∧ a ≠ b) := h.and hn
  refine hp.imp ?_
  intro a b hab
  cases hl : lessStr a b with
  | true => rfl
  | false => exact absurd (eq_of_not_lessStr a b hl hab.1) hab.2

theorem sortStrings_strictAscending (l : List Str) (hn : l.Nodup) :
    StrictAscending (sortStrings l) :=
  strictAscending_of_nodup _ (sortStrings_ascending l) ((sortStrings_perm l).nodup_iff.2 hn)

theorem StrictAscending.nodup {l : List Str} (h : StrictAscending l) : l.Nodup := by
  unfold StrictAscending at h
  refine h.imp ?_
  intro a b hab e
  subst e
  rw [lessStr_irrefl] at hab
  exact absurd hab (by simp)

theorem StrictAscending.ascending {l : List Str} (h : StrictAscending l) : Ascending l := by
  unfold StrictAscending at h
  exact h.imp (fun hab => lessStr_asymm _ _ hab)

theorem ascending_perm_unique : ∀ (l₁ l₂ : List Str), l₁.Perm l₂ → Ascending l₁ →
    Ascending l₂ → l₁ = l₂ := by
  intro l₁ l₂ hp h₁ h₂
  haveI : IsAntisymm Str (fun a b => lessStr b a = false) :=
    ⟨fun a b hab hba => eq_of_not_lessStr a b hba hab⟩
  exact List.eq_of_perm_of_sorted hp h₁ h₂


/-! ## `buildSubcategoryList` in closed form -/

theorem lookup_eq_none_iff {β : Type} (m : List (Str × β)) (k : Str) :
    m.lookup k = none ↔ k ∉ keys m := by
  induction m with
  | nil => exact ⟨fun _ h => (by cases h), fun _ => rfl⟩
  | cons e rest ih =>
    obtain ⟨a, b⟩ := e
    by_cases h : k = a
    · subst h
      rw [lookup_cons_eq]
      exact ⟨fun h => (by cases h), fun h => absurd (List.mem_cons_self _ _) h⟩
    · rw [lookup_cons_ne _ _ _ _ h, ih]
      unfold keys
      rw [List.map_cons, List.mem_cons]
      exact ⟨fun h1 h2 => h2.elim h h1, fun h1 h2 => h1 (Or.inr h2)⟩

theorem mem_of_lookup_eq_some {β : Type} (m : List (Str × β)) (k : Str) (v : β)
    (h : m.lookup k = some v) : (k, v) ∈ m := by
  induction m with
  | nil => simp at h
  | cons e rest ih =>
    obtain ⟨a, b⟩ := e
    by_cases hk : k = a
    · subst hk
      rw [lookup_cons_eq] at h
      cases h
      exact List.mem_cons_self _ _
    · rw [lookup_cons_ne _ _ _ _ hk] at h
      exact List.mem_cons_of_mem _ (ih h)

theorem lookup_eq_some_of_mem {β : Type} (m : List (Str × β)) (k : Str) (v : β)
    (hn : (keys m).Nodup) (h : (k, v) ∈ m) : m.lookup k = some v := by
  induction m with
  | nil => simp at h
  | cons e rest ih =>
    obtain ⟨a, b⟩ := e
    simp only [keys, List.map_cons, List.nodup_cons] at hn
    rcases List.mem_cons.1 h with h1 | h2
    · cases h1
      exact lookup_cons_eq _ _ _
    · have hk : k ≠ a := by
        intro e
        subst e
        exact hn.1 (List.mem_map.2 ⟨(k, v), h2, rfl⟩)
      rw [lookup_cons_ne _ _ _ _ hk]
      exact ih hn.2 h2

theorem mem_firstOccurrences (l : List Str) (x : Str) : x ∈ firstOccurrences l ↔ x ∈ l := by
  induction l with
  | nil => simp [firstOccurrences]
  | cons y ys ih =>
    simp only [firstOccurrences, List.mem_cons, List.mem_filter, ih, decide_eq_true_eq]
    constructor
    · rintro (h | h)
      · exact Or.inl h
      · exact Or.inr h.1
    · rintro (h | h)
      · exact Or.inl h
      · by_cases e : x = y
        · exact Or.inl e
        · exact Or.inr ⟨h, e⟩

theorem firstOccurrences_nodup (l : List Str) : (firstOccurrences l).Nodup := by
  induction l with
  | nil => simp [firstOccurrences]
  | cons y ys ih =>
    simp only [firstOccurrences, List.nodup_cons, List.mem_filter, decide_eq_true_eq]
    exact ⟨fun h => h.2 rfl, ih.filter _⟩

theorem firstOccurrences_of_nodup (l : List Str) (h : l.Nodup) : firstOccurrences l = l := by
  induction l with
  | nil => rfl
  | cons y ys ih =>
    rw [List.nodup_cons] at h
    simp only [firstOccurrences, ih h.2]
    congr 1
    rw [List.filter_eq_self]
    intro a ha
    simp only [decide_eq_true_eq]
    intro e
    subst e
    exact h.1 ha

theorem firstOccurrences_filter (p : Str → Bool) (l : List Str) :
    firstOccurrences (l.filter p) = (firstOccurrences l).filter p := by
  induction l with
  | nil => rfl
  | cons x xs ih =>
    by_cases hp : p x = true
    · rw [List.filter_cons_of_pos hp]
      simp only [firstOccurrences]
      rw [List.filter_cons_of_pos hp, ih, List.filter_filter, List.filter_filter]
      congr 1
      apply List.filter_congr
      intro a _
      exact Bool.and_comm _ _
    · rw [List.filter_cons_of_neg hp]
      simp only [firstOccurrences]
      rw [List.filter_cons_of_neg hp, ih, List.filter_filter]
      apply List.filter_congr
      intro a _
      by_cases e : a = x
      · subst e
        simp [hp]
      · simp [e]

theorem renderOptionsFrom_map_id (lowerTable : Char → Char) (k slug previewBase : Str)
    (isAnimation : Bool) (opts : List Str) : ∀ i : Nat,
    (renderOptionsFrom lowerTable k slug previewBase isAnimation i opts).map
      optionOut.OptionID = opts := by
  induction opts with
  | nil => intro i; rfl
  | cons o rest ih =>
    intro i
    simp only [renderOptionsFrom, List.map_cons, ih]
    congr 1
    unfold renderOption
    split_ifs <;> rfl

theorem leftoverLoop_eq (lowerTable : Char → Char) (slug previewBase : Str)
    (isAnimation : Bool) (seen : List Str) (visit : Table) :
    ∀ result : List subcategoryOut,
    leftoverLoop lowerTable slug previewBase isAnimation seen visit result =
      result ++ (visit.filter (fun e => decide (e.1 ∉ seen))).map
        (fun e => renderSubcategory lowerTable slug previewBase isAnimation e.1 e.2) := by
  induction visit with
  | nil => intro result; simp [leftoverLoop]
  | cons e rest ih =>
    intro result
    obtain ⟨k, opts⟩ := e
    by_cases hk : k ∈ seen
    · simp only [leftoverLoop, if_pos hk, ih]
      rw [List.filter_cons_of_neg (by simpa using hk)]
    · simp only [leftoverLoop, if_neg hk, ih]
      rw [List.filter_cons_of_pos (by simpa using hk)]
      simp

theorem orderedLoop_eq (lowerTable : Char → Char) (all : Table) (slug previewBase : Str)
    (isAnimation : Bool) (order : List Str) :
    ∀ (seen : List Str) (result : List subcategoryOut),
    orderedLoop lowerTable all slug previewBase isAnimation order seen result =
      ((firstOccurrences
          (order.filter (fun k => decide (k ∈ keys all ∧ k ∉ seen)))).reverse ++ seen,
        result ++
          (firstOccurrences (order.filter (fun k => decide (k ∈ keys all ∧ k ∉ seen)))).map
            (fun k => renderSubcategory lowerTable slug previewBase isAnimation k
              (optionsOf all k))) := by
  induction order with
  | nil => intro seen result; simp [orderedLoop, firstOccurrences]
  | cons k rest ih =>
    intro seen result
    cases hl : all.lookup k with
    | none =>
      have hk : k ∉ keys all := (lookup_eq_none_iff all k).1 hl
      simp only [orderedLoop, hl, ih]
      rw [List.filter_cons_of_neg (by simp [hk])]
    | some opts =>
      have hk : k ∈ keys all := by
        by_contra hc
        rw [(lookup_eq_none_iff all k).2 hc] at hl
        cases hl
      by_cases hs : k ∈ seen
      · simp only [orderedLoop, hl, if_pos hs, ih]
        rw [List.filter_cons_of_neg (by simp [hs])]
      · simp only [orderedLoop, hl, if_neg hs, ih]
        rw [List.filter_cons_of_pos (by simp [hk, hs])]
        have hf : rest.filter (fun k' => decide (k' ∈ keys all ∧ k' ∉ k :: seen)) =
            (rest.filter (fun k' => decide (k' ∈ keys all ∧ k' ∉ seen))).filter
              (fun y => decide (y ≠ k)) := by
          rw [List.filter_filter]
          apply List.filter_congr
          intro a _
          by_cases e : a = k
          · subst e; simp
          · simp [e]
        have ho : optionsOf all k = opts := by simp [optionsOf, hl]
        rw [hf, firstOccurrences_filter]
        simp only [firstOccurrences, List.reverse_cons, List.append_assoc, List.singleton_append,
          List.map_cons, ho]

theorem buildSubcategoryList_eq (lowerTable : Char → Char) (ρ : RangeOrder) (order : List Str)
    (all : Table) (slug previewBase : Str) (isAnimation : Bool) :
    buildSubcategoryList lowerTable ρ order all slug previewBase isAnimation =
      (firstOccurrences (order.filter (fun k => decide (k ∈ keys all)))).map
          (fun k => renderSubcategory lowerTable slug previewBase isAnimation k
            (optionsOf all k)) ++
        ((ρ.order all).filter (fun e => decide (e.1 ∉ order))).map
          (fun e => renderSubcategory lowerTable slug previewBase isAnimation e.1 e.2) := by
  unfold buildSubcategoryList
  simp only [orderedLoop_eq, leftoverLoop_eq, List.nil_append, List.append_nil, List.not_mem_nil,
    not_false_eq_true, and_true]
  congr 2
  apply List.filter_congr
  intro e he
  have hk : e.1 ∈ keys all := List.mem_map.2 ⟨e, (ρ.perm all).mem_iff.1 he, rfl⟩
  simp [mem_firstOccurrences, hk]


/-! ## `topCategory` -/

theorem toNat_ofNat_small (n : Nat) (h : n < 0xD800) : (Char.ofNat n).toNat = n := by
  unfold Char.ofNat
  have hv : n.isValidChar := Or.inl h
  rw [dif_pos hv]
  simp [Char.ofNatAux, Char.toNat, UInt32.toNat]

/-- With a case table that leaves every rune alone, lower-casing twice is
lower-casing once. -/
theorem toLowerRune_stored_idem (c : Char) :
    toLowerRune (fun r => r) (toLowerRune (fun r => r) c) = toLowerRune (fun r => r) c := by
  unfold toLowerRune
  by_cases h1 : c.toNat ≤ 0x7F
  · by_cases h2 : 0x41 ≤ c.toNat ∧ c.toNat ≤ 0x5A
    · have h3 : (Char.ofNat (c.toNat + 32)).toNat = c.toNat + 32 :=
        toNat_ofNat_small _ (by omega)
      simp only [if_pos h1, if_pos h2, h3]
      rw [if_pos (by omega), if_neg (by omega)]
    · simp only [if_pos h1, if_neg h2]
  · simp only [if_neg h1]

theorem ToLower_idem (lowerTable : Char → Char)
    (hI : ∀ c, toLowerRune lowerTable (toLowerRune lowerTable c) = toLowerRune lowerTable c)
    (s : Str) : ToLower lowerTable (ToLower lowerTable s) = ToLower lowerTable s := by
  unfold ToLower
  rw [List.map_map]
  apply List.map_congr_left
  intro c _
  exact hI c

theorem topCategory_congr (lowerTable : Char → Char) (k k' : Str)
    (h : ToLower lowerTable k' = ToLower lowerTable k) :
    topCategory lowerTable k' = topCategory lowerTable k := by
  unfold topCategory
  rw [h]

theorem topCategory_eq_fashion_iff (lowerTable : Char → Char) (k : Str) :
    topCategory lowerTable k = "fashion".toList ↔
      ToLower lowerTable k ∈
        ["dress".toList, "shoes".toList, "watch".toList, "fan".toList] := by
  unfold topCategory
  simp only [List.mem_cons, List.mem_singleton, List.not_mem_nil, or_false]
  split_ifs with h1 h2 h3
  · simp only [true_iff]
    tauto
  · constructor
    · intro h; exact absurd h (by decide)
    · intro h; exact absurd (by tauto) h1
  · constructor
    · intro h; exact absurd h (by decide)
    · intro h; exact absurd (by tauto) h1
  · constructor
    · intro h; exact absurd h (by decide)
    · intro h; exact absurd (by tauto) h1

theorem topCategory_eq_animation_iff (lowerTable : Char → Char) (k : Str) :
    topCategory lowerTable k = "animation".toList ↔
      ToLower lowerTable k = "animation".toList := by
  unfold topCategory
  simp only []
  split_ifs with h1 h2 h3
  · constructor
    · intro h; exact absurd h (by decide)
    · intro h
      rw [h] at h1
      exact absurd h1 (by decide)
  · constructor
    · intro h; exact absurd h (by decide)
    · intro h
      rw [h] at h2
      exact absurd h2 (by decide)
  · exact ⟨fun _ => h3, fun _ => rfl⟩
  · constructor
    · intro h; exact absurd h (by decide)
    · intro h; exact absurd h h3

theorem topCategory_mem (lowerTable : Char → Char) (k : Str) :
    topCategory lowerTable k ∈ ["body".toList, "fashion".toList, "animation".toList] := by
  unfold topCategory
  simp only []
  split_ifs <;> decide

theorem topCategory_eq_body_iff (lowerTable : Char → Char) (k : Str) :
    topCategory lowerTable k = "body".toList ↔
      ToLower lowerTable k ∉
        ["dress".toList, "shoes".toList, "watch".toList, "fan".toList,
          "animation".toList] := by
  have hf := topCategory_eq_fashion_iff lowerTable k
  have ha := topCategory_eq_animation_iff lowerTable k
  have hm := topCategory_mem lowerTable k
  simp only [List.mem_cons, List.mem_singleton, List.not_mem_nil, or_false] at hf hm ⊢
  constructor
  · intro hb
    rw [hb] at hf ha
    have h1 : ¬ ("body".toList = "fashion".toList) := by decide
    have h2 : ¬ ("body".toList = "animation".toList) := by decide
    intro h
    rcases h with h | h | h | h | h
    · exact h1 (hf.2 (Or.inl h))
    · exact h1 (hf.2 (Or.inr (Or.inl h)))
    · exact h1 (hf.2 (Or.inr (Or.inr (Or.inl h))))
    · exact h1 (hf.2 (Or.inr (Or.inr (Or.inr h))))
    · exact h2 (ha.2 h)
  · intro h
    rcases hm with hm | hm | hm
    · exact hm
    · exact absurd (by have := hf.1 hm; tauto) h
    · exact absurd (by have := ha.1 hm; tauto) h

/-- C3.  `topCategory` is total, it is a function of the lower-cased key only
(two keys with the same lower-casing have the same category, and a key has the
category of its lower-casing as soon as lower-casing a lower-cased rune changes
nothing), it returns `fashion` exactly for the keys that lower-case to `dress`,
`shoes`, `watch` or `fan`, `animation` exactly for those that lower-case to
`animation`, `body` for every other key, `eyebrow`, `eyes`, `face`, `hair`,
`lips` and `hat` among them, and nothing else. -/
theorem topCategory_classification (lowerTable : Char → Char)
    (hI : ∀ c, toLowerRune lowerTable (toLowerRune lowerTable c) = toLowerRune lowerTable c)
    (k : Str) :
    topCategory lowerTable k = topCategory lowerTable (ToLower lowerTable k) ∧
    (∀ k', ToLower lowerTable k' = ToLower lowerTable k →
      topCategory lowerTable k' = topCategory lowerTable k) ∧
    (topCategory lowerTable k = "fashion".toList ↔
      ToLower lowerTable k ∈
        ["dress".toList, "shoes".toList, "watch".toList, "fan".toList]) ∧
    (topCategory lowerTable k = "animation".toList ↔
      ToLower lowerTable k = "animation".toList) ∧
    (topCategory lowerTable k = "body".toList ↔
      ToLower lowerTable k ∉
        ["dress".toList, "shoes".toList, "watch".toList, "fan".toList,
          "animation".toList]) ∧
    (∀ k' ∈ ["eyebrow".toList, "eyes".toList, "face".toList, "hair".toList, "lips".toList,
        "hat".toList], topCategory lowerTable k' = "body".toList) ∧
    topCategory lowerTable k ∈ ["body".toList, "fashion".toList, "animation".toList] := by
  refine ⟨?_, ?_, topCategory_eq_fashion_iff lowerTable k,
    topCategory_eq_animation_iff lowerTable k, topCategory_eq_body_iff lowerTable k, ?_,
    topCategory_mem lowerTable k⟩
  · exact (topCategory_congr lowerTable k _ (ToLower_idem lowerTable hI k)).symm
  · intro k' h
    exact topCategory_congr lowerTable k k' h
  · intro k' hk'
    simp only [List.mem_cons, List.mem_singleton, List.not_mem_nil, or_false] at hk'
    rcases hk' with rfl | rfl | rfl | rfl | rfl | rfl <;> rfl

/-- C3 at the key `ShOeS`, with a case table that leaves the runes above ASCII
alone. -/
theorem topCategory_classification_witness :
    (∀ c, toLowerRune (fun r => r) (toLowerRune (fun r => r) c) =
      toLowerRune (fun r => r) c) ∧
    topCategory (fun r => r) "ShOeS".toList = "fashion".toList ∧
    topCategory (fun r => r) "ShOeS".toList =
      topCategory (fun r => r) (ToLower (fun r => r) "ShOeS".toList) :=
  ⟨toLowerRune_stored_idem, by decide,
    (topCategory_classification (fun r => r) toLowerRune_stored_idem "ShOeS".toList).1⟩


/-! ## The keys `buildSubcategoryList` emits -/

theorem renderSubcategory_key (lowerTable : Char → Char) (slug previewBase : Str)
    (isAnimation : Bool) (k : Str) (opts : List Str) :
    (renderSubcategory lowerTable slug previewBase isAnimation k opts).Key = k := rfl

theorem keys_of_buildSubcategoryList (lowerTable : Char → Char) (ρ : RangeOrder)
    (order : List Str) (all : Table) (slug previewBase : Str) (isAnimation : Bool) :
    (buildSubcategoryList lowerTable ρ order all slug previewBase isAnimation).map
        subcategoryOut.Key =
      firstOccurrences (order.filter (fun k => decide (k ∈ keys all))) ++
        (keys (ρ.order all)).filter (fun k => decide (k ∉ order)) := by
  rw [buildSubcategoryList_eq, List.map_append, List.map_map, List.map_map]
  congr 1
  · exact List.map_id _
  · unfold keys
    rw [List.filter_map]
    rfl

theorem filter_nodup_firstOccurrences (order : List Str) (h : order.Nodup) (p : Str → Bool) :
    firstOccurrences (order.filter p) = order.filter p :=
  firstOccurrences_of_nodup _ (h.filter p)

theorem mem_buildSubcategoryList (lowerTable : Char → Char) (ρ : RangeOrder)
    (order : List Str) (all : Table) (slug previewBase : Str) (isAnimation : Bool)
    (s : subcategoryOut)
    (h : s ∈ buildSubcategoryList lowerTable ρ order all slug previewBase isAnimation) :
    ∃ k opts, (k, opts) ∈ all ∧
      s = renderSubcategory lowerTable slug previewBase isAnimation k opts := by
  rw [buildSubcategoryList_eq, List.mem_append, List.mem_map, List.mem_map] at h
  rcases h with ⟨k, hk, rfl⟩ | ⟨e, he, rfl⟩
  · rw [mem_firstOccurrences, List.mem_filter] at hk
    have hk2 : k ∈ keys all := by simpa using hk.2
    cases hl : all.lookup k with
    | none => exact absurd hk2 ((lookup_eq_none_iff all k).1 hl)
    | some opts =>
      refine ⟨k, opts, mem_of_lookup_eq_some all k opts hl, ?_⟩
      simp [optionsOf, hl]
  · rw [List.mem_filter] at he
    exact ⟨e.1, e.2, (ρ.perm all).mem_iff.1 he.1, rfl⟩

theorem buildSubcategoryList_mem_of_mem (lowerTable : Char → Char) (ρ : RangeOrder)
    (order : List Str) (all : Table) (slug previewBase : Str) (isAnimation : Bool)
    (hn : (keys all).Nodup) (k : Str) (opts : List Str) (h : (k, opts) ∈ all) :
    renderSubcategory lowerTable slug previewBase isAnimation k opts ∈
      buildSubcategoryList lowerTable ρ order all slug previewBase isAnimation := by
  rw [buildSubcategoryList_eq, List.mem_append, List.mem_map, List.mem_map]
  by_cases ho : k ∈ order
  · left
    refine ⟨k, ?_, ?_⟩
    · rw [mem_firstOccurrences, List.mem_filter]
      refine ⟨ho, ?_⟩
      have : k ∈ keys all := List.mem_map.2 ⟨(k, opts), h, rfl⟩
      simpa using this
    · simp [optionsOf, lookup_eq_some_of_mem all k opts hn h]
  · right
    refine ⟨(k, opts), ?_, rfl⟩
    rw [List.mem_filter]
    exact ⟨(ρ.perm all).mem_iff.2 h, by simpa using ho⟩

theorem buildSubcategoryList_ne_nil (lowerTable : Char → Char) (ρ : RangeOrder)
    (order : List Str) (all : Table) (slug previewBase : Str) (isAnimation : Bool)
    (h : all ≠ []) :
    buildSubcategoryList lowerTable ρ order all slug previewBase isAnimation ≠ [] := by
  intro hnil
  have hk := keys_of_buildSubcategoryList lowerTable ρ order all slug previewBase isAnimation
  rw [hnil] at hk
  have hk := hk.symm
  rw [List.map_nil, List.append_eq_nil] at hk
  cases all with
  | nil => exact h rfl
  | cons e rest =>
    have he : e ∈ e :: rest := List.mem_cons_self _ _
    have hek : e.1 ∈ keys (e :: rest) := List.mem_map.2 ⟨e, he, rfl⟩
    by_cases ho : e.1 ∈ order
    · have : e.1 ∈ firstOccurrences
          (order.filter (fun k => decide (k ∈ keys (e :: rest)))) := by
        rw [mem_firstOccurrences, List.mem_filter]
        exact ⟨ho, by simpa using hek⟩
      rw [hk.1] at this
      cases this
    · have : e.1 ∈ (keys (ρ.order (e :: rest))).filter (fun k => decide (k ∉ order)) := by
        rw [List.mem_filter]
        exact ⟨List.mem_map.2 ⟨e, (ρ.perm _).mem_iff.2 he, rfl⟩, by simpa using ho⟩
      rw [hk.2] at this
      cases this

/-- C4.  The keys of the list `buildSubcategoryList` returns are the keys of the
canonical list that are in the table, in the order of the canonical list and
each once, followed by the keys of the table that are not in the canonical
list, each as often as the table holds it.  For the three canonical lists of
the program, which repeat no key, the first part is the canonical list with the
absent keys left out.  Keys are compared as they are written: a body table with
`hair`, `lips` and `Hair` gives `Hair`, `hair`, `lips`. -/
theorem buildSubcategoryList_keys (lowerTable : Char → Char) (ρ : RangeOrder)
    (order : List Str) (all : Table) (slug previewBase : Str) (isAnimation : Bool) :
    (∃ rest,
      (buildSubcategoryList lowerTable ρ order all slug previewBase isAnimation).map
          subcategoryOut.Key =
        firstOccurrences (order.filter (fun k => decide (k ∈ keys all))) ++ rest ∧
      rest.Perm ((keys all).filter (fun k => decide (k ∉ order)))) ∧
    (firstOccurrences (order.filter (fun k => decide (k ∈ keys all)))).Nodup ∧
    (∀ k, k ∈ firstOccurrences (order.filter (fun k => decide (k ∈ keys all))) ↔
      k ∈ order ∧ k ∈ keys all) ∧
    firstOccurrences (bodyOrder.filter (fun k => decide (k ∈ keys all))) =
      bodyOrder.filter (fun k => decide (k ∈ keys all)) ∧
    firstOccurrences (fashionOrder.filter (fun k => decide (k ∈ keys all))) =
      fashionOrder.filter (fun k => decide (k ∈ keys all)) ∧
    firstOccurrences (["animation".toList].filter (fun k => decide (k ∈ keys all))) =
      ["animation".toList].filter (fun k => decide (k ∈ keys all)) ∧
    (buildSubcategoryList lowerTable ρ bodyOrder
        [("hair".toList, ["b".toList]), ("lips".toList, ["c".toList]),
          ("Hair".toList, ["a".toList])] slug previewBase isAnimation).map
        subcategoryOut.Key =
      ["Hair".toList, "hair".toList, "lips".toList] := by
  refine ⟨⟨_, keys_of_buildSubcategoryList lowerTable ρ order all slug previewBase isAnimation,
    ?_⟩, firstOccurrences_nodup _, ?_,
    filter_nodup_firstOccurrences _ (by decide) _,
    filter_nodup_firstOccurrences _ (by decide) _,
    filter_nodup_firstOccurrences _ (by decide) _, ?_⟩
  · unfold keys
    exact ((ρ.perm all).map Prod.fst).filter _
  · intro k
    rw [mem_firstOccurrences, List.mem_filter]
    simp
  · rw [keys_of_buildSubcategoryList]
    have hrest : ∀ l : List Str,
        l.Perm ((keys [("hair".toList, ["b".toList]), ("lips".toList, ["c".toList]),
          ("Hair".toList, ["a".toList])]).filter (fun k => decide (k ∉ bodyOrder))) →
        l = [] := by
      intro l hl
      have : (keys [("hair".toList, ["b".toList]), ("lips".toList, ["c".toList]),
          ("Hair".toList, ["a".toList])]).filter (fun k => decide (k ∉ bodyOrder)) = [] := by
        decide
      rw [this] at hl
      exact hl.eq_nil
    have hperm : ((keys (ρ.order [("hair".toList, ["b".toList]), ("lips".toList, ["c".toList]),
          ("Hair".toList, ["a".toList])])).filter (fun k => decide (k ∉ bodyOrder))).Perm
        ((keys [("hair".toList, ["b".toList]), ("lips".toList, ["c".toList]),
          ("Hair".toList, ["a".toList])]).filter (fun k => decide (k ∉ bodyOrder))) := by
      unfold keys
      exact ((ρ.perm _).map Prod.fst).filter _
    rw [hrest _ hperm]
    decide


/-! ## Invariants of the table -/

theorem keys_mapSet {β : Type} (m : List (Str × β)) (k : Str) (v : β) :
    keys (mapSet m k v) = if k ∈ keys m then keys m else keys m ++ [k] := by
  induction m with
  | nil => simp [mapSet, keys]
  | cons e rest ih =>
    obtain ⟨a, b⟩ := e
    unfold keys at ih ⊢
    by_cases hak : a = k
    · subst hak
      have h1 : mapSet ((a, b) :: rest) a v = (a, v) :: rest := by
        unfold mapSet
        rw [if_pos rfl]
      rw [h1, List.map_cons, List.map_cons, if_pos (List.mem_cons_self _ _)]
    · have hka : ¬ k = a := fun e => hak e.symm
      simp only [mapSet, if_neg hak, List.map_cons, ih, List.mem_cons, hka, false_or]
      split_ifs <;> simp

theorem keys_mapSet_nodup {β : Type} (m : List (Str × β)) (k : Str) (v : β)
    (h : (keys m).Nodup) : (keys (mapSet m k v)).Nodup := by
  rw [keys_mapSet]
  split_ifs with hk
  · exact h
  · exact List.Nodup.append h (List.nodup_singleton k) (by
      intro a ha hb
      rw [List.mem_singleton] at hb
      subst hb
      exact hk ha)

theorem mem_keys_mapSet {β : Type} (m : List (Str × β)) (k : Str) (v : β) (k' : Str) :
    k' ∈ keys (mapSet m k v) ↔ k' = k ∨ k' ∈ keys m := by
  rw [keys_mapSet]
  split_ifs with hk
  · constructor
    · exact Or.inr
    · rintro (rfl | h)
      · exact hk
      · exact h
  · rw [List.mem_append, List.mem_singleton]
    tauto

theorem skinStep_keys_nodup (lowerTable : Char → Char) (m : Table) (n : Str)
    (h : (keys m).Nodup) : (keys (skinStep lowerTable m n)).Nodup := by
  rw [skinStep_eq]
  cases parseSkin lowerTable n with
  | none => exact h
  | some p =>
    obtain ⟨l, r⟩ := p
    simp only []
    split_ifs
    · exact h
    · exact keys_mapSet_nodup _ _ _ h

theorem foldl_skinStep_keys_nodup (lowerTable : Char → Char) (skins : List Str) :
    ∀ m : Table, (keys m).Nodup → (keys (skins.foldl (skinStep lowerTable) m)).Nodup := by
  induction skins with
  | nil => intro m h; exact h
  | cons n rest ih =>
    intro m h
    exact ih _ (skinStep_keys_nodup lowerTable m n h)

theorem skinTable_keys_nodup (lowerTable : Char → Char) (skins : List Str) :
    (keys (skinTable lowerTable skins)).Nodup :=
  foldl_skinStep_keys_nodup lowerTable skins [] List.nodup_nil

theorem skinStep_options_nodup (lowerTable : Char → Char) (m : Table) (n : Str)
    (h : ∀ k, (optionsOf m k).Nodup) : ∀ k, (optionsOf (skinStep lowerTable m n) k).Nodup := by
  intro k
  rw [skinStep_eq]
  cases parseSkin lowerTable n with
  | none => exact h k
  | some p =>
    obtain ⟨l, r⟩ := p
    simp only []
    split_ifs with hr
    · exact h k
    · rw [optionsOf_mapSet]
      split_ifs with hk
      · exact List.Nodup.append (h l) (List.nodup_singleton r) (by
          intro a ha hb
          rw [List.mem_singleton] at hb
          subst hb
          exact hr ha)
      · exact h k

theorem foldl_skinStep_options_nodup (lowerTable : Char → Char) (skins : List Str) :
    ∀ m : Table, (∀ k, (optionsOf m k).Nodup) →
      ∀ k, (optionsOf (skins.foldl (skinStep lowerTable) m) k).Nodup := by
  induction skins with
  | nil => intro m h; exact h
  | cons n rest ih =>
    intro m h
    exact ih _ (skinStep_options_nodup lowerTable m n h)

theorem skinTable_options_nodup (lowerTable : Char → Char) (skins : List Str) (k : Str) :
    (optionsOf (skinTable lowerTable skins) k).Nodup :=
  foldl_skinStep_options_nodup lowerTable skins [] (fun _ => List.nodup_nil) k

theorem addAnimations_keys_nodup (lowerTable : Char → Char) (m : Table)
    (animations : Option (List Str)) (h : (keys m).Nodup) :
    (keys (addAnimations lowerTable m animations)).Nodup := by
  cases animations with
  | none => exact h
  | some ks =>
    simp only [addAnimations]
    split_ifs
    · exact keys_mapSet_nodup _ _ _ h
    · exact h

theorem optionsOf_addAnimations (lowerTable : Char → Char) (m : Table)
    (animations : Option (List Str)) (k : Str) :
    optionsOf (addAnimations lowerTable m animations) k =
      match animations with
      | none => optionsOf m k
      | some ks =>
        if k = "animation".toList ∧ animOpts lowerTable ks ≠ [] then
          sortStrings (animOpts lowerTable ks)
        else optionsOf m k := by
  cases animations with
  | none => rfl
  | some ks =>
    simp only [addAnimations]
    by_cases hne : animOpts lowerTable ks = []
    · simp [hne]
    · have hpos : 0 < (animOpts lowerTable ks).length := List.length_pos.2 hne
      rw [if_pos hpos, optionsOf_mapSet]
      by_cases hk : k = "animation".toList
      · rw [if_pos hk, if_pos ⟨hk, hne⟩]
      · rw [if_neg hk, if_neg (fun h => hk h.1)]

theorem keys_sortTable (m : Table) : keys (sortTable m) = keys m := by
  unfold keys sortTable
  rw [List.map_map]
  rfl

theorem lookup_sortTable (m : Table) (k : Str) :
    (sortTable m).lookup k = (m.lookup k).map sortStrings := by
  induction m with
  | nil => rfl
  | cons e rest ih =>
    obtain ⟨a, b⟩ := e
    by_cases h : k = a
    · subst h
      simp [sortTable, lookup_cons_eq]
    · have : sortTable ((a, b) :: rest) = (a, sortStrings b) :: sortTable rest := rfl
      rw [this, lookup_cons_ne _ _ _ _ h, lookup_cons_ne _ _ _ _ h, ih]

theorem optionsOf_sortTable (m : Table) (k : Str) :
    optionsOf (sortTable m) k = sortStrings (optionsOf m k) := by
  unfold optionsOf
  rw [lookup_sortTable]
  cases m.lookup k with
  | none => rfl
  | some v => rfl

theorem buildTable_keys_nodup (lowerTable : Char → Char) (asset : spineAsset) :
    (keys (buildTable lowerTable asset)).Nodup := by
  unfold buildTable
  rw [keys_sortTable]
  exact addAnimations_keys_nodup _ _ _ (skinTable_keys_nodup _ _)

theorem optionsOf_eq_of_mem (m : Table) (hn : (keys m).Nodup) (k : Str) (opts : List Str)
    (h : (k, opts) ∈ m) : optionsOf m k = opts := by
  unfold optionsOf
  rw [lookup_eq_some_of_mem m k opts hn h]
  rfl

theorem animOpts_nodup (lowerTable : Char → Char) (ks : List Str) (h : ks.Nodup) :
    (animOpts lowerTable ks).Nodup := h.filter _

/-- The options of a key in the finished table, by where they come from. -/
theorem optionsOf_buildTable (lowerTable : Char → Char) (asset : spineAsset) (k : Str) :
    optionsOf (buildTable lowerTable asset) k =
      sortStrings
        (match asset.Animations with
        | none => optionsOf (skinTable lowerTable asset.Skins) k
        | some ks =>
          if k = "animation".toList ∧ animOpts lowerTable ks ≠ [] then
            sortStrings (animOpts lowerTable ks)
          else optionsOf (skinTable lowerTable asset.Skins) k) := by
  unfold buildTable
  rw [optionsOf_sortTable, optionsOf_addAnimations]

theorem buildTable_options_strict (lowerTable : Char → Char) (asset : spineAsset)
    (hA : ∀ ks, asset.Animations = some ks → ks.Nodup) (k : Str) :
    StrictAscending (optionsOf (buildTable lowerTable asset) k) := by
  rw [optionsOf_buildTable]
  apply sortStrings_strictAscending
  cases hanim : asset.Animations with
  | none => exact skinTable_options_nodup _ _ _
  | some ks =>
    simp only []
    split_ifs
    · exact (sortStrings_perm _).nodup_iff.2 (animOpts_nodup _ _ (hA ks hanim))
    · exact skinTable_options_nodup _ _ _


/-! ## The categories of the catalog -/

theorem buildCategories_eq (lowerTable : Char → Char) (ρ : RangeOrder) (T : Table)
    (slug previewBase : Str) :
    buildCategories lowerTable ρ T slug previewBase =
      categoryPlan.filterMap (renderCategory lowerTable ρ T slug previewBase) := by
  unfold buildCategories categoryPlan
  simp only [List.filterMap_cons, List.filterMap_nil, renderCategory]
  split_ifs <;> rfl

theorem mem_buildCategories (lowerTable : Char → Char) (ρ : RangeOrder) (T : Table)
    (slug previewBase : Str) (cat : categoryOut) :
    cat ∈ buildCategories lowerTable ρ T slug previewBase ↔
      ∃ p ∈ categoryPlan, bucket lowerTable p.1 T ≠ [] ∧
        cat = { Key := p.1, Label := p.2.1,
                Subcategories :=
                  buildSubcategoryList lowerTable ρ p.2.2.1 (bucket lowerTable p.1 T)
                    slug previewBase p.2.2.2 } := by
  rw [buildCategories_eq, List.mem_filterMap]
  constructor
  · rintro ⟨p, hp, h⟩
    unfold renderCategory at h
    split_ifs at h with hlen
    refine ⟨p, hp, List.length_pos.1 hlen, ?_⟩
    cases h
    rfl
  · rintro ⟨p, hp, hne, rfl⟩
    refine ⟨p, hp, ?_⟩
    unfold renderCategory
    rw [if_pos (List.length_pos.2 hne)]

theorem categoryPlan_isAnimation (p : Str × Str × List Str × Bool) (hp : p ∈ categoryPlan) :
    p.2.2.2 = decide (p.1 = "animation".toList) := by
  simp only [categoryPlan, List.mem_cons, List.mem_singleton, List.not_mem_nil, or_false] at hp
  rcases hp with rfl | rfl | rfl <;> decide

theorem mem_bucket (lowerTable : Char → Char) (cat : Str) (T : Table) (e : Str × List Str) :
    e ∈ bucket lowerTable cat T ↔ e ∈ T ∧ topCategory lowerTable e.1 = cat := by
  unfold bucket
  rw [List.mem_filter]
  simp

theorem bucket_keys_nodup (lowerTable : Char → Char) (cat : Str) (T : Table)
    (h : (keys T).Nodup) : (keys (bucket lowerTable cat T)).Nodup := by
  unfold keys bucket at *
  exact (List.Sublist.map _ (List.filter_sublist _)).nodup h

/-- Every subcategory of the catalog renders one entry of the table, under the
category `topCategory` gives to its key. -/
theorem mem_catalog_subcategory (lowerTable : Char → Char) (ρ : RangeOrder) (T : Table)
    (slug previewBase : Str) (cat : categoryOut) (sub : subcategoryOut)
    (hcat : cat ∈ buildCategories lowerTable ρ T slug previewBase)
    (hsub : sub ∈ cat.Subcategories) :
    ∃ k opts, (k, opts) ∈ T ∧ topCategory lowerTable k = cat.Key ∧
      sub = renderSubcategory lowerTable slug previewBase
        (decide (cat.Key = "animation".toList)) k opts := by
  rw [mem_buildCategories] at hcat
  obtain ⟨p, hp, _, rfl⟩ := hcat
  obtain ⟨k, opts, hmem, rfl⟩ := mem_buildSubcategoryList _ _ _ _ _ _ _ _ hsub
  rw [mem_bucket] at hmem
  refine ⟨k, opts, hmem.1, hmem.2, ?_⟩
  rw [categoryPlan_isAnimation p hp]

theorem catalog_subcategory_ids (lowerTable : Char → Char) (ρ : RangeOrder)
    (asset : spineAsset) (slug avatarName cdnBase : Str) (cat : categoryOut)
    (sub : subcategoryOut)
    (hcat : cat ∈ (buildCatalog lowerTable ρ asset slug avatarName cdnBase).Categories)
    (hsub : sub ∈ cat.Subcategories) :
    (sub.Key, sub.Options.map optionOut.OptionID) ∈ buildTable lowerTable asset ∧
    sub.Options.map optionOut.OptionID =
      optionsOf (buildTable lowerTable asset) sub.Key := by
  obtain ⟨k, opts, hmem, _, rfl⟩ := mem_catalog_subcategory _ _ _ _ _ _ _ hcat hsub
  have hid : (renderSubcategory lowerTable slug (previewBaseOf slug cdnBase)
      (decide (cat.Key = "animation".toList)) k opts).Options.map optionOut.OptionID = opts :=
    renderOptionsFrom_map_id _ _ _ _ _ _ 0
  rw [hid, renderSubcategory_key]
  exact ⟨hmem, (optionsOf_eq_of_mem _ (buildTable_keys_nodup _ _) _ _ hmem).symm⟩

/-- C2.  Whatever the skins and the animations, the option ids of every
subcategory of the catalog are in strictly ascending order, hence without a
duplicate; `hair/red` given twice yields the one option `red` under `hair`, and
`eyes/zeta` before `eyes/alpha` yields `alpha` before `zeta`. -/
theorem catalog_options_sorted (lowerTable : Char → Char) (ρ : RangeOrder)
    (asset : spineAsset) (slug avatarName cdnBase : Str)
    (hA : ∀ ks, asset.Animations = some ks → ks.Nodup) :
    (∀ cat ∈ (buildCatalog lowerTable ρ asset slug avatarName cdnBase).Categories,
      ∀ sub ∈ cat.Subcategories,
        StrictAscending (sub.Options.map optionOut.OptionID) ∧
        (sub.Options.map optionOut.OptionID).Nodup) ∧
    buildTable lowerTable ⟨["hair/red".toList, "hair/red".toList], none⟩ =
      [("hair".toList, ["red".toList])] ∧
    buildTable lowerTable ⟨["eyes/zeta".toList, "eyes/alpha".toList], none⟩ =
      [("eyes".toList, ["alpha".toList, "zeta".toList])] := by
  refine ⟨?_, rfl, rfl⟩
  intro cat hcat sub hsub
  have h := (catalog_subcategory_ids lowerTable ρ asset slug avatarName cdnBase cat sub hcat
    hsub).2
  have hs := buildTable_options_strict lowerTable asset hA sub.Key
  rw [← h] at hs
  exact ⟨hs, hs.nodup⟩

/-- C2 on an asset with the skins `eyes/zeta`, `eyes/alpha`, `eyes/zeta` and
the clips `walk`, `idle`. -/
theorem catalog_options_sorted_witness :
    (∀ ks, (some ["walk".toList, "idle".toList] : Option (List Str)) = some ks → ks.Nodup) ∧
    ∀ cat ∈ (buildCatalog (fun r => r) RangeOrder.stored
        ⟨["eyes/zeta".toList, "eyes/alpha".toList, "eyes/zeta".toList],
          some ["walk".toList, "idle".toList]⟩ "nova".toList "Nova".toList []).Categories,
      ∀ sub ∈ cat.Subcategories,
        StrictAscending (sub.Options.map optionOut.OptionID) ∧
        (sub.Options.map optionOut.OptionID).Nodup :=
  ⟨fun ks h => by cases h; decide,
    (catalog_options_sorted (fun r => r) RangeOrder.stored
      ⟨["eyes/zeta".toList, "eyes/alpha".toList, "eyes/zeta".toList],
        some ["walk".toList, "idle".toList]⟩ "nova".toList "Nova".toList []
      (fun ks h => by cases h; decide)).1⟩


/-! ## Which keys the table holds, which categories the catalog holds -/

theorem mem_keys_of_optionsOf_ne_nil (m : Table) (k : Str) (h : optionsOf m k ≠ []) :
    k ∈ keys m := by
  by_contra hk
  apply h
  unfold optionsOf
  rw [(lookup_eq_none_iff m k).2 hk]
  rfl

theorem mem_keys_skinStep (lowerTable : Char → Char) (m : Table) (n k : Str) :
    k ∈ keys (skinStep lowerTable m n) ↔
      k ∈ keys m ∨ ∃ opt, parseSkin lowerTable n = some (k, opt) := by
  rw [skinStep_eq]
  cases hp : parseSkin lowerTable n with
  | none => simp
  | some p =>
    obtain ⟨l, r⟩ := p
    simp only [Option.some.injEq, Prod.mk.injEq]
    by_cases hr : r ∈ optionsOf m l
    · rw [if_pos hr]
      constructor
      · exact Or.inl
      · rintro (h | ⟨opt, rfl, _⟩)
        · exact h
        · exact mem_keys_of_optionsOf_ne_nil m l (List.ne_nil_of_mem hr)
    · rw [if_neg hr, mem_keys_mapSet]
      constructor
      · rintro (h | h)
        · exact Or.inr ⟨r, h.symm, rfl⟩
        · exact Or.inl h
      · rintro (h | ⟨opt, h, _⟩)
        · exact Or.inr h
        · exact Or.inl h.symm

theorem mem_keys_foldl_skinStep (lowerTable : Char → Char) (skins : List Str) :
    ∀ (m : Table) (k : Str),
      k ∈ keys (skins.foldl (skinStep lowerTable) m) ↔
        k ∈ keys m ∨ ∃ n ∈ skins, ∃ opt, parseSkin lowerTable n = some (k, opt) := by
  induction skins with
  | nil => intro m k; simp
  | cons n rest ih =>
    intro m k
    rw [List.foldl_cons, ih, mem_keys_skinStep]
    simp only [List.mem_cons, exists_eq_or_imp]
    tauto

theorem mem_keys_skinTable (lowerTable : Char → Char) (skins : List Str) (k : Str) :
    k ∈ keys (skinTable lowerTable skins) ↔
      ∃ n ∈ skins, ∃ opt, parseSkin lowerTable n = some (k, opt) := by
  unfold skinTable
  rw [mem_keys_foldl_skinStep]
  simp [keys]

theorem mem_keys_addAnimations (lowerTable : Char → Char) (m : Table)
    (animations : Option (List Str)) (k : Str) :
    k ∈ keys (addAnimations lowerTable m animations) ↔
      k ∈ keys m ∨
        (k = "animation".toList ∧ ∃ ks, animations = some ks ∧ animOpts lowerTable ks ≠ []) := by
  cases animations with
  | none => simp [addAnimations]
  | some ks =>
    simp only [addAnimations]
    by_cases hne : animOpts lowerTable ks = []
    · simp [hne]
    · rw [if_pos (List.length_pos.2 hne), mem_keys_mapSet]
      simp only [Option.some.injEq, exists_eq_left']
      tauto

/-- The keys of the finished table: the subcategories of the taxonomy skins,
and `animation` when a clip is kept. -/
theorem mem_keys_buildTable (lowerTable : Char → Char) (asset : spineAsset) (k : Str) :
    k ∈ keys (buildTable lowerTable asset) ↔
      (∃ n ∈ asset.Skins, ∃ opt, parseSkin lowerTable n = some (k, opt)) ∨
        (k = "animation".toList ∧
          ∃ ks, asset.Animations = some ks ∧ animOpts lowerTable ks ≠ []) := by
  unfold buildTable
  rw [keys_sortTable, mem_keys_addAnimations, mem_keys_skinTable]

theorem mem_categories_keys (lowerTable : Char → Char) (ρ : RangeOrder) (T : Table)
    (slug previewBase : Str) (c : Str) :
    c ∈ (buildCategories lowerTable ρ T slug previewBase).map categoryOut.Key ↔
      ∃ k ∈ keys T, topCategory lowerTable k = c := by
  rw [List.mem_map]
  constructor
  · rintro ⟨cat, hcat, rfl⟩
    rw [mem_buildCategories] at hcat
    obtain ⟨p, _, hne, rfl⟩ := hcat
    obtain ⟨e, he⟩ := List.exists_mem_of_ne_nil _ hne
    rw [mem_bucket] at he
    exact ⟨e.1, List.mem_map.2 ⟨e, he.1, rfl⟩, he.2⟩
  · rintro ⟨k, hk, rfl⟩
    obtain ⟨e, he, rfl⟩ := List.mem_map.1 hk
    have hm := topCategory_mem lowerTable e.1
    have hp : ∃ p ∈ categoryPlan, p.1 = topCategory lowerTable e.1 := by
      simp only [List.mem_cons, List.mem_singleton, List.not_mem_nil, or_false] at hm
      rcases hm with hm | hm | hm
      · exact ⟨_, List.mem_cons_self _ _, hm.symm⟩
      · exact ⟨_, List.mem_cons_of_mem _ (List.mem_cons_self _ _), hm.symm⟩
      · exact ⟨_, List.mem_cons_of_mem _ (List.mem_cons_of_mem _ (List.mem_cons_self _ _)),
          hm.symm⟩
    obtain ⟨p, hp, hpk⟩ := hp
    refine ⟨_, (mem_buildCategories _ _ _ _ _ _).2 ⟨p, hp, ?_, rfl⟩, hpk⟩
    exact List.ne_nil_of_mem ((mem_bucket _ _ _ _).2 ⟨he, hpk.symm⟩)

theorem categories_sublist (lowerTable : Char → Char) (ρ : RangeOrder) (T : Table)
    (slug previewBase : Str) :
    ((buildCategories lowerTable ρ T slug previewBase).map
        (fun c => (c.Key, c.Label))).Sublist
      [("body".toList, "Body".toList), ("fashion".toList, "Fashion".toList),
        ("animation".toList, "Animation".toList)] := by
  unfold buildCategories
  simp only []
  split_ifs <;> simp only [List.map_append, List.map_cons, List.map_nil, List.append_nil,
    List.nil_append, List.cons_append] <;> decide

theorem mem_animOpts (lowerTable : Char → Char) (ks : List Str) (x : Str) :
    x ∈ animOpts lowerTable ks ↔
      x ∈ ks ∧ TrimSpace (ToLower lowerTable x) ≠ "default".toList := by
  unfold animOpts
  rw [List.mem_filter]
  simp

theorem parseSkin_eq_none_iff (lowerTable : Char → Char) (n : Str) :
    parseSkin lowerTable n = none ↔ ∀ sub opt, ¬ IsTaxonomySkin lowerTable n sub opt := by
  constructor
  · intro h sub opt ht
    rw [(parseSkin_eq_some_iff _ _ _ _).2 ht] at h
    cases h
  · intro h
    cases hp : parseSkin lowerTable n with
    | none => rfl
    | some p => exact absurd ((parseSkin_eq_some_iff _ _ _ _).1 hp) (h p.1 p.2)

theorem animOpts_eq_nil_iff (lowerTable : Char → Char) (ks : List Str) :
    animOpts lowerTable ks = [] ↔
      ∀ k ∈ ks, TrimSpace (ToLower lowerTable k) = "default".toList := by
  rw [List.eq_nil_iff_forall_not_mem]
  constructor
  · intro h k hk
    by_contra hd
    exact h k ((mem_animOpts lowerTable ks k).2 ⟨hk, hd⟩)
  · intro h k hk
    rw [mem_animOpts] at hk
    exact hk.2 (h k hk.1)

theorem TrimSpace_default : TrimSpace "default".toList = "default".toList := by decide

theorem categories_eq_nil_iff (lowerTable : Char → Char) (ρ : RangeOrder) (asset : spineAsset)
    (slug previewBase : Str) :
    buildCategories lowerTable ρ (buildTable lowerTable asset) slug previewBase = [] ↔
      (∀ n ∈ asset.Skins, ∀ sub opt, ¬ IsTaxonomySkin lowerTable n sub opt) ∧
        ∀ ks, asset.Animations = some ks →
          ∀ k ∈ ks, TrimSpace (ToLower lowerTable k) = "default".toList := by
  have hk := mem_categories_keys lowerTable ρ (buildTable lowerTable asset) slug previewBase
  constructor
  · intro hnil
    rw [hnil] at hk
    have hno : ∀ k, k ∉ keys (buildTable lowerTable asset) := by
      intro k hkm
      have := (hk (topCategory lowerTable k)).2 ⟨k, hkm, rfl⟩
      cases this
    constructor
    · intro n hn sub opt ht
      exact hno sub ((mem_keys_buildTable lowerTable asset sub).2
        (Or.inl ⟨n, hn, opt, (parseSkin_eq_some_iff _ _ _ _).2 ht⟩))
    · intro ks hks
      rw [← animOpts_eq_nil_iff]
      by_contra hne
      exact hno _ ((mem_keys_buildTable lowerTable asset _).2 (Or.inr ⟨rfl, ks, hks, hne⟩))
  · rintro ⟨hs, ha⟩
    cases hc : buildCategories lowerTable ρ (buildTable lowerTable asset) slug previewBase with
    | nil => rfl
    | cons cat rest =>
      rw [hc] at hk
      obtain ⟨k, hkm, _⟩ := (hk cat.Key).1 (List.mem_map.2 ⟨cat, List.mem_cons_self _ _, rfl⟩)
      rcases (mem_keys_buildTable lowerTable asset k).1 hkm with
        ⟨n, hn, opt, hp⟩ | ⟨_, ks, hks, hne⟩
      · exact absurd ((parseSkin_eq_some_iff _ _ _ _).1 hp) (hs n hn k opt)
      · exact absurd ((animOpts_eq_nil_iff lowerTable ks).2 (ha ks hks)) hne

/-- C5.  The categories of the catalog, as pairs of key and label, are a
sub-sequence of `(body, Body)`, `(fashion, Fashion)`, `(animation, Animation)`;
a key is among them exactly when `topCategory` sends a key of the table to it;
no category has an empty list of subcategories; the list of categories is
empty exactly when no skin is a taxonomy skin and every clip name lower-cases
and trims to `default`; in particular it is empty when no skin is a taxonomy
skin and every clip name lower-cases to `default`. -/
theorem catalog_categories (lowerTable : Char → Char) (ρ : RangeOrder) (asset : spineAsset)
    (slug avatarName cdnBase : Str) :
    (((buildCatalog lowerTable ρ asset slug avatarName cdnBase).Categories.map
        (fun c => (c.Key, c.Label))).Sublist
      [("body".toList, "Body".toList), ("fashion".toList, "Fashion".toList),
        ("animation".toList, "Animation".toList)]) ∧
    (∀ c, c ∈ (buildCatalog lowerTable ρ asset slug avatarName cdnBase).Categories.map
        categoryOut.Key ↔
      ∃ k ∈ keys (buildTable lowerTable asset), topCategory lowerTable k = c) ∧
    (∀ cat ∈ (buildCatalog lowerTable ρ asset slug avatarName cdnBase).Categories,
      cat.Subcategories ≠ []) ∧
    ((buildCatalog lowerTable ρ asset slug avatarName cdnBase).Categories = [] ↔
      (∀ n ∈ asset.Skins, ∀ sub opt, ¬ IsTaxonomySkin lowerTable n sub opt) ∧
        ∀ ks, asset.Animations = some ks →
          ∀ k ∈ ks, TrimSpace (ToLower lowerTable k) = "default".toList) ∧
    ((∀ n ∈ asset.Skins, ∀ sub opt, ¬ IsTaxonomySkin lowerTable n sub opt) ∧
        (∀ ks, asset.Animations = some ks →
          ∀ k ∈ ks, ToLower lowerTable k = "default".toList) →
      (buildCatalog lowerTable ρ asset slug avatarName cdnBase).Categories = []) := by
  refine ⟨categories_sublist _ _ _ _ _, mem_categories_keys _ _ _ _ _, ?_,
    categories_eq_nil_iff _ _ _ _ _, ?_⟩
  · intro cat hcat
    simp only [buildCatalog] at hcat
    rw [mem_buildCategories] at hcat
    obtain ⟨p, _, hne, rfl⟩ := hcat
    exact buildSubcategoryList_ne_nil _ _ _ _ _ _ _ hne
  · rintro ⟨hs, ha⟩
    refine (categories_eq_nil_iff lowerTable ρ asset slug (previewBaseOf slug cdnBase)).2
      ⟨hs, ?_⟩
    intro ks hks k hk
    rw [ha ks hks k hk]
    exact TrimSpace_default


/-! ## The options `buildSubcategoryList` renders -/

theorem mem_renderOptionsFrom (lowerTable : Char → Char) (k slug previewBase : Str)
    (isAnimation : Bool) (opts : List Str) :
    ∀ (i : Nat) (o : optionOut),
      o ∈ renderOptionsFrom lowerTable k slug previewBase isAnimation i opts →
      ∃ j oid, opts[j]? = some oid ∧
        o = renderOption lowerTable k slug previewBase isAnimation (i + j) oid := by
  induction opts with
  | nil => intro i o h; simp [renderOptionsFrom] at h
  | cons x rest ih =>
    intro i o h
    simp only [renderOptionsFrom, List.mem_cons] at h
    rcases h with rfl | h
    · exact ⟨0, x, by simp, rfl⟩
    · obtain ⟨j, oid, hj, rfl⟩ := ih (i + 1) o h
      refine ⟨j + 1, oid, by simpa using hj, ?_⟩
      rw [show i + (j + 1) = i + 1 + j by omega]

theorem getElem?_renderOptionsFrom (lowerTable : Char → Char) (k slug previewBase : Str)
    (isAnimation : Bool) (opts : List Str) :
    ∀ (i j : Nat),
      (renderOptionsFrom lowerTable k slug previewBase isAnimation i opts)[j]? =
        (opts[j]?).map (renderOption lowerTable k slug previewBase isAnimation (i + j)) := by
  induction opts with
  | nil => intro i j; simp [renderOptionsFrom]
  | cons x rest ih =>
    intro i j
    cases j with
    | zero => simp [renderOptionsFrom]
    | succ j =>
      simp only [renderOptionsFrom, List.getElem?_cons_succ, ih]
      rw [show i + (j + 1) = i + 1 + j by omega]

/-- C6.  Every option `buildSubcategoryList` renders has the humanized option
id as its label.  Rendered with `isAnimation = false` its skin name is the key
of its subcategory, `/`, and its option id, and its preview URL is not empty;
rendered with `isAnimation = true` its skin name and its preview URL are empty.
The option ids of a rendered subcategory are, in order, the option ids the
table holds for its key. -/
theorem buildSubcategoryList_options (lowerTable : Char → Char) (ρ : RangeOrder)
    (order : List Str) (all : Table) (slug previewBase : Str) :
    (∀ sub ∈ buildSubcategoryList lowerTable ρ order all slug previewBase false,
      (sub.Key, sub.Options.map optionOut.OptionID) ∈ all ∧
      ∀ o ∈ sub.Options,
        o.Label = humanize lowerTable o.OptionID ∧
        o.SkinName = sub.Key ++ "/".toList ++ o.OptionID ∧
        o.PreviewURL ≠ []) ∧
    (∀ sub ∈ buildSubcategoryList lowerTable ρ order all slug previewBase true,
      (sub.Key, sub.Options.map optionOut.OptionID) ∈ all ∧
      ∀ o ∈ sub.Options,
        o.Label = humanize lowerTable o.OptionID ∧
        o.SkinName = [] ∧
        o.PreviewURL = []) := by
  constructor
  · intro sub hsub
    obtain ⟨k, opts, hmem, rfl⟩ := mem_buildSubcategoryList _ _ _ _ _ _ _ _ hsub
    refine ⟨?_, ?_⟩
    · have hid : (renderSubcategory lowerTable slug previewBase false k opts).Options.map
          optionOut.OptionID = opts := renderOptionsFrom_map_id _ _ _ _ _ _ 0
      rw [hid]
      exact hmem
    · intro o ho
      obtain ⟨j, oid, _, rfl⟩ := mem_renderOptionsFrom _ _ _ _ _ _ _ _ ho
      refine ⟨rfl, rfl, ?_⟩
      simp only [renderOption, renderSubcategory]
      by_cases hb : previewBase = []
      · simp [hb]
      · simp [hb]
  · intro sub hsub
    obtain ⟨k, opts, hmem, rfl⟩ := mem_buildSubcategoryList _ _ _ _ _ _ _ _ hsub
    refine ⟨?_, ?_⟩
    · have hid : (renderSubcategory lowerTable slug previewBase true k opts).Options.map
          optionOut.OptionID = opts := renderOptionsFrom_map_id _ _ _ _ _ _ 0
      rw [hid]
      exact hmem
    · intro o ho
      obtain ⟨j, oid, _, rfl⟩ := mem_renderOptionsFrom _ _ _ _ _ _ _ _ ho
      exact ⟨rfl, rfl, rfl⟩


theorem previewBaseOf_ne_nil (slug cdnBase : Str) (h : cdnBase ≠ []) :
    previewBaseOf slug cdnBase ≠ [] := by
  unfold previewBaseOf
  rw [if_pos h]
  intro hnil
  have := congrArg List.length hnil
  simp only [List.length_append, List.length_nil] at this
  have h9 : ("/catalog/".toList).length = 9 := rfl
  omega

/-- C7.  In a category other than `animation`, the option at index `i` (rank
`i + 1`) of a subcategory is the `i`-th option id the table holds for the key
of the subcategory, and its preview URL is `catalog/<slug>/<key>/<i + 1>.webp`
when the CDN base is empty, and otherwise the CDN base without one trailing
`/`, followed by `/catalog/<slug>/<key>/<option id>.webp`. -/
theorem catalog_previewUrl (lowerTable : Char → Char) (ρ : RangeOrder) (asset : spineAsset)
    (slug avatarName cdnBase : Str) (cat : categoryOut) (sub : subcategoryOut) (i : Nat)
    (o : optionOut)
    (hcat : cat ∈ (buildCatalog lowerTable ρ asset slug avatarName cdnBase).Categories)
    (hkey : cat.Key ≠ "animation".toList) (hsub : sub ∈ cat.Subcategories)
    (ho : sub.Options[i]? = some o) :
    (optionsOf (buildTable lowerTable asset) sub.Key)[i]? = some o.OptionID ∧
    o.PreviewURL =
      if cdnBase = [] then
        "catalog/".toList ++ slug ++ "/".toList ++ sub.Key ++ "/".toList ++ decimal (i + 1) ++
          ".webp".toList
      else
        TrimSuffixSlash cdnBase ++ "/catalog/".toList ++ slug ++ "/".toList ++ sub.Key ++
          "/".toList ++ o.OptionID ++ ".webp".toList := by
  obtain ⟨k, opts, hmem, _, rfl⟩ := mem_catalog_subcategory _ _ _ _ _ _ _ hcat hsub
  have hfalse : decide (cat.Key = "animation".toList) = false := by simpa using hkey
  rw [hfalse] at ho ⊢
  simp only [renderSubcategory] at ho ⊢
  rw [getElem?_renderOptionsFrom] at ho
  rw [optionsOf_eq_of_mem _ (buildTable_keys_nodup _ _) _ _ hmem]
  cases hoi : opts[i]? with
  | none => rw [hoi] at ho; cases ho
  | some oid =>
    rw [hoi] at ho
    simp only [Option.map_some', Option.some.injEq, Nat.zero_add] at ho
    subst ho
    refine ⟨rfl, ?_⟩
    by_cases hc : cdnBase = []
    · subst hc
      simp [renderOption, previewBaseOf]
    · have hpb := previewBaseOf_ne_nil slug cdnBase hc
      simp only [renderOption, Bool.not_false, if_true, if_pos hpb, if_neg hc]
      simp only [previewBaseOf, if_pos hc, List.append_assoc]

/-- C7 on slug `nova` with the one skin `eyes/blue`: without a CDN base the
preview URL of the option of rank 1 is `catalog/nova/eyes/1.webp`. -/
theorem catalog_previewUrl_witness :
    (buildCatalog (fun r => r) RangeOrder.stored ⟨["eyes/blue".toList], none⟩ "nova".toList
        "Nova".toList []).Categories =
      [⟨"body".toList, "Body".toList,
        [⟨"eyes".toList, "eyes".toList,
          [⟨"blue".toList, "Blue".toList, "eyes/blue".toList,
            "catalog/nova/eyes/1.webp".toList⟩]⟩]⟩] ∧
    "catalog/nova/eyes/1.webp".toList =
      "catalog/".toList ++ "nova".toList ++ "/".toList ++ "eyes".toList ++ "/".toList ++
        decimal (0 + 1) ++ ".webp".toList :=
  ⟨by decide,
    (catalog_previewUrl (fun r => r) RangeOrder.stored ⟨["eyes/blue".toList], none⟩
      "nova".toList "Nova".toList []
      ⟨"body".toList, "Body".toList,
        [⟨"eyes".toList, "eyes".toList,
          [⟨"blue".toList, "Blue".toList, "eyes/blue".toList,
            "catalog/nova/eyes/1.webp".toList⟩]⟩]⟩
      ⟨"eyes".toList, "eyes".toList,
        [⟨"blue".toList, "Blue".toList, "eyes/blue".toList, "catalog/nova/eyes/1.webp".toList⟩]⟩
      0 ⟨"blue".toList, "Blue".toList, "eyes/blue".toList, "catalog/nova/eyes/1.webp".toList⟩
      (by decide) (by decide) (by decide) (by decide)).2⟩


/-! ## The table as a function of the set of skin names -/

theorem lookup_eq_ite (T : Table) (k : Str) :
    T.lookup k = if k ∈ keys T then some (optionsOf T k) else none := by
  cases h : T.lookup k with
  | none => rw [if_neg ((lookup_eq_none_iff T k).1 h)]
  | some v =>
    have hk : k ∈ keys T := by
      by_contra hc
      rw [(lookup_eq_none_iff T k).2 hc] at h
      cases h
    rw [if_pos hk]
    simp [optionsOf, h]

theorem sortStrings_eq_of_perm (l₁ l₂ : List Str) (h : l₁.Perm l₂) :
    sortStrings l₁ = sortStrings l₂ :=
  ascending_perm_unique _ _
    (((sortStrings_perm l₁).trans h).trans (sortStrings_perm l₂).symm)
    (sortStrings_ascending l₁) (sortStrings_ascending l₂)

theorem skinTable_options_perm (lowerTable : Char → Char) (skins₁ skins₂ : List Str)
    (h : ∀ n, n ∈ skins₁ ↔ n ∈ skins₂) (k : Str) :
    (optionsOf (skinTable lowerTable skins₁) k).Perm
      (optionsOf (skinTable lowerTable skins₂) k) := by
  rw [List.perm_ext_iff_of_nodup (skinTable_options_nodup _ _ _) (skinTable_options_nodup _ _ _)]
  intro opt
  unfold skinTable
  rw [mem_optionsOf_foldl_skinStep, mem_optionsOf_foldl_skinStep]
  simp only [h]

theorem buildTable_lookup_congr (lowerTable : Char → Char) (skins₁ skins₂ : List Str)
    (animations : Option (List Str)) (h : ∀ n, n ∈ skins₁ ↔ n ∈ skins₂) (k : Str) :
    (buildTable lowerTable ⟨skins₁, animations⟩).lookup k =
      (buildTable lowerTable ⟨skins₂, animations⟩).lookup k := by
  have hkeys : k ∈ keys (buildTable lowerTable ⟨skins₁, animations⟩) ↔
      k ∈ keys (buildTable lowerTable ⟨skins₂, animations⟩) := by
    rw [mem_keys_buildTable, mem_keys_buildTable]
    simp only [h]
  have hopts : optionsOf (buildTable lowerTable ⟨skins₁, animations⟩) k =
      optionsOf (buildTable lowerTable ⟨skins₂, animations⟩) k := by
    rw [optionsOf_buildTable, optionsOf_buildTable]
    have hp := skinTable_options_perm lowerTable skins₁ skins₂ h k
    cases animations with
    | none => exact sortStrings_eq_of_perm _ _ hp
    | some ks =>
      simp only []
      split_ifs
      · rfl
      · exact sortStrings_eq_of_perm _ _ hp
  rw [lookup_eq_ite, lookup_eq_ite, hopts]
  by_cases hk : k ∈ keys (buildTable lowerTable ⟨skins₁, animations⟩)
  · rw [if_pos hk, if_pos (hkeys.1 hk)]
  · rw [if_neg hk, if_neg (fun h2 => hk (hkeys.2 h2))]

/-- The subcategories of the catalog under the category of key `c` are the
renderings of the entries of the table that `topCategory` sends to `c`. -/
theorem mem_catalog_subcategory_iff (lowerTable : Char → Char) (ρ : RangeOrder) (T : Table)
    (slug previewBase : Str) (hn : (keys T).Nodup) (c : Str) (s : subcategoryOut) :
    (∃ cat ∈ buildCategories lowerTable ρ T slug previewBase,
        cat.Key = c ∧ s ∈ cat.Subcategories) ↔
      ∃ k opts, T.lookup k = some opts ∧ topCategory lowerTable k = c ∧
        s = renderSubcategory lowerTable slug previewBase
          (decide (c = "animation".toList)) k opts := by
  constructor
  · rintro ⟨cat, hcat, rfl, hs⟩
    obtain ⟨k, opts, hmem, htop, rfl⟩ := mem_catalog_subcategory _ _ _ _ _ _ _ hcat hs
    exact ⟨k, opts, lookup_eq_some_of_mem T k opts hn hmem, htop, rfl⟩
  · rintro ⟨k, opts, hl, rfl, rfl⟩
    have hmem := mem_of_lookup_eq_some T k opts hl
    have hm := topCategory_mem lowerTable k
    have hp : ∃ p ∈ categoryPlan, p.1 = topCategory lowerTable k := by
      simp only [List.mem_cons, List.mem_singleton, List.not_mem_nil, or_false] at hm
      rcases hm with hm | hm | hm
      · exact ⟨_, List.mem_cons_self _ _, hm.symm⟩
      · exact ⟨_, List.mem_cons_of_mem _ (List.mem_cons_self _ _), hm.symm⟩
      · exact ⟨_, List.mem_cons_of_mem _ (List.mem_cons_of_mem _ (List.mem_cons_self _ _)),
          hm.symm⟩
    obtain ⟨p, hp, hpk⟩ := hp
    have hb : (k, opts) ∈ bucket lowerTable p.1 T := (mem_bucket _ _ _ _).2 ⟨hmem, hpk.symm⟩
    refine ⟨_, (mem_buildCategories _ _ _ _ _ _).2 ⟨p, hp, List.ne_nil_of_mem hb, rfl⟩, hpk, ?_⟩
    simp only []
    rw [← hpk, ← categoryPlan_isAnimation p hp]
    exact buildSubcategoryList_mem_of_mem _ _ _ _ _ _ _ (bucket_keys_nodup _ _ _ hn) _ _ hb

/-- C8.  Two lists of skin names with the same set of names give, with the same
animations, tables with the same option list under every key, and catalogs
that hold, under every category, the same rendered subcategories, whatever
the orders in which the maps are ranged over. -/
theorem buildTable_skin_set (lowerTable : Char → Char) (skins₁ skins₂ : List Str)
    (animations : Option (List Str)) (h : ∀ n, n ∈ skins₁ ↔ n ∈ skins₂) :
    (∀ k, (buildTable lowerTable ⟨skins₁, animations⟩).lookup k =
      (buildTable lowerTable ⟨skins₂, animations⟩).lookup k) ∧
    (∀ (ρ₁ ρ₂ : RangeOrder) (slug avatarName cdnBase c : Str) (s : subcategoryOut),
      (∃ cat ∈ (buildCatalog lowerTable ρ₁ ⟨skins₁, animations⟩ slug avatarName
          cdnBase).Categories, cat.Key = c ∧ s ∈ cat.Subcategories) ↔
      (∃ cat ∈ (buildCatalog lowerTable ρ₂ ⟨skins₂, animations⟩ slug avatarName
          cdnBase).Categories, cat.Key = c ∧ s ∈ cat.Subcategories)) := by
  refine ⟨buildTable_lookup_congr lowerTable skins₁ skins₂ animations h, ?_⟩
  intro ρ₁ ρ₂ slug avatarName cdnBase c s
  simp only [buildCatalog]
  rw [mem_catalog_subcategory_iff _ _ _ _ _ (buildTable_keys_nodup _ _),
    mem_catalog_subcategory_iff _ _ _ _ _ (buildTable_keys_nodup _ _)]
  simp only [buildTable_lookup_congr lowerTable skins₁ skins₂ animations h]

/-- C8 on the skins `hair/red`, `eyes/blue`, `hair/red` and the same names
without the repetition, last to first. -/
theorem buildTable_skin_set_witness :
    (∀ n, n ∈ ["hair/red".toList, "eyes/blue".toList, "hair/red".toList] ↔
      n ∈ ["eyes/blue".toList, "hair/red".toList]) ∧
    ∀ k, (buildTable (fun r => r)
        ⟨["hair/red".toList, "eyes/blue".toList, "hair/red".toList], none⟩).lookup k =
      (buildTable (fun r => r) ⟨["eyes/blue".toList, "hair/red".toList], none⟩).lookup k :=
  ⟨fun n => by simp only [List.mem_cons, List.mem_singleton, List.not_mem_nil]; tauto,
    (buildTable_skin_set (fun r => r)
      ["hair/red".toList, "eyes/blue".toList, "hair/red".toList]
      ["eyes/blue".toList, "hair/red".toList] none
      (fun n => by simp only [List.mem_cons, List.mem_singleton, List.not_mem_nil]; tauto)).1⟩


/-! ## The clips under `animation` -/

/-- C9, as the claim states it, fails on the clips `idle` and ` default` (with a
leading blank): the second is not `default` in any case, and yet the list under
`animation` is `idle` alone. -/
theorem animation_options_counterexample :
    ToLower (fun r => r) " default".toList ≠ "default".toList ∧
    (buildTable (fun r => r) ⟨[], some ["idle".toList, " default".toList]⟩).lookup
        "animation".toList = some ["idle".toList] ∧
    " default".toList ∉ ["idle".toList] := by
  decide

/-- C9, amended.  When a clip name `k` of the animations map does not lower-case
and trim to `default`, the table holds the key `animation`, `k` is in its option
list, and that list is in strictly ascending order (so without a duplicate) and
holds exactly the clip names that do not lower-case and trim to `default`, as
they are written. -/
theorem animation_options (lowerTable : Char → Char) (asset : spineAsset) (ks : List Str)
    (hks : asset.Animations = some ks) (hn : ks.Nodup) (k : Str) (hk : k ∈ ks)
    (hd : TrimSpace (ToLower lowerTable k) ≠ "default".toList) :
    ∃ L, (buildTable lowerTable asset).lookup "animation".toList = some L ∧ k ∈ L ∧
      StrictAscending L ∧
      ∀ x, x ∈ L ↔ x ∈ ks ∧ TrimSpace (ToLower lowerTable x) ≠ "default".toList := by
  have hka : k ∈ animOpts lowerTable ks := (mem_animOpts lowerTable ks k).2 ⟨hk, hd⟩
  have hne : animOpts lowerTable ks ≠ [] := List.ne_nil_of_mem hka
  have hkey : "animation".toList ∈ keys (buildTable lowerTable asset) :=
    (mem_keys_buildTable lowerTable asset _).2 (Or.inr ⟨rfl, ks, hks, hne⟩)
  have hopt : optionsOf (buildTable lowerTable asset) "animation".toList =
      sortStrings (sortStrings (animOpts lowerTable ks)) := by
    rw [optionsOf_buildTable, hks]
    exact congrArg sortStrings (if_pos ⟨rfl, hne⟩)
  have hperm : (sortStrings (sortStrings (animOpts lowerTable ks))).Perm
      (animOpts lowerTable ks) := (sortStrings_perm _).trans (sortStrings_perm _)
  refine ⟨sortStrings (sortStrings (animOpts lowerTable ks)), ?_, ?_, ?_, ?_⟩
  · rw [lookup_eq_ite, if_pos hkey, hopt]
  · exact hperm.mem_iff.2 hka
  · have := buildTable_options_strict lowerTable asset
      (fun ks' h' => by rw [hks] at h'; cases h'; exact hn) "animation".toList
    rw [hopt] at this
    exact this
  · intro x
    rw [hperm.mem_iff, mem_animOpts]

/-- C9, amended, on the clips `walk`, `Default`, `idle` and the clip `walk`. -/
theorem animation_options_witness :
    TrimSpace (ToLower (fun r => r) "walk".toList) ≠ "default".toList ∧
    ∃ L, (buildTable (fun r => r)
        ⟨[], some ["walk".toList, "Default".toList, "idle".toList]⟩).lookup
          "animation".toList = some L ∧ "walk".toList ∈ L ∧ StrictAscending L ∧
      ∀ x, x ∈ L ↔ x ∈ ["walk".toList, "Default".toList, "idle".toList] ∧
        TrimSpace (ToLower (fun r => r) x) ≠ "default".toList :=
  ⟨by decide,
    animation_options (fun r => r) ⟨[], some ["walk".toList, "Default".toList, "idle".toList]⟩
      ["walk".toList, "Default".toList, "idle".toList] rfl (by decide) "walk".toList
      (by decide) (by decide)⟩

/-! ## No clip, no `animation` -/

theorem ToLower_animation (lowerTable : Char → Char) :
    ToLower lowerTable "animation".toList = "animation".toList := rfl

/-- C10, as the claim states it, fails on an asset without animations whose one
skin is `animation/wave`: the table has the key `animation` and the catalog the
category `animation`. -/
theorem no_animation_counterexample :
    "animation".toList ∈ keys (buildTable (fun r => r) ⟨["animation/wave".toList], none⟩) ∧
    "animation".toList ∈
      (buildCatalog (fun r => r) RangeOrder.stored ⟨["animation/wave".toList], none⟩
        "nova".toList "Nova".toList []).Categories.map categoryOut.Key := by
  decide

/-- C10, amended.  When every clip name of the animations map, if there is a
map, lower-cases and trims to `default`, and no taxonomy skin has a subcategory
that lower-cases to `animation`, the table has no key `animation` and the
catalog has no category of key `animation`. -/
theorem no_animation_category (lowerTable : Char → Char) (ρ : RangeOrder) (asset : spineAsset)
    (slug avatarName cdnBase : Str)
    (hA : ∀ ks, asset.Animations = some ks →
      ∀ k ∈ ks, TrimSpace (ToLower lowerTable k) = "default".toList)
    (hS : ∀ n ∈ asset.Skins, ∀ sub opt, IsTaxonomySkin lowerTable n sub opt →
      ToLower lowerTable sub ≠ "animation".toList) :
    "animation".toList ∉ keys (buildTable lowerTable asset) ∧
    ∀ cat ∈ (buildCatalog lowerTable ρ asset slug avatarName cdnBase).Categories,
      cat.Key ≠ "animation".toList := by
  have hno : ∀ k, k ∈ keys (buildTable lowerTable asset) →
      ToLower lowerTable k ≠ "animation".toList := by
    intro k hk
    rcases (mem_keys_buildTable lowerTable asset k).1 hk with
      ⟨n, hn, opt, hp⟩ | ⟨_, ks, hks, hne⟩
    · exact hS n hn k opt ((parseSkin_eq_some_iff _ _ _ _).1 hp)
    · exfalso
      obtain ⟨x, hx⟩ := List.exists_mem_of_ne_nil _ hne
      rw [mem_animOpts] at hx
      exact hx.2 (hA ks hks x hx.1)
  constructor
  · intro hk
    exact hno _ hk (ToLower_animation lowerTable)
  · intro cat hcat hkey
    have hc : "animation".toList ∈
        (buildCatalog lowerTable ρ asset slug avatarName cdnBase).Categories.map
          categoryOut.Key := List.mem_map.2 ⟨cat, hcat, hkey⟩
    simp only [buildCatalog] at hc
    rw [mem_categories_keys] at hc
    obtain ⟨k, hk, htop⟩ := hc
    exact hno k hk ((topCategory_eq_animation_iff lowerTable k).1 htop)

/-- C10, amended, on the skin `hair/red` and the one clip `Default`. -/
theorem no_animation_category_witness :
    (∀ ks, (some ["Default".toList] : Option (List Str)) = some ks →
      ∀ k ∈ ks, TrimSpace (ToLower (fun r => r) k) = "default".toList) ∧
    parseSkin (fun r => r) "hair/red".toList = some ("hair".toList, "red".toList) ∧
    "animation".toList ∉
      keys (buildTable (fun r => r) ⟨["hair/red".toList], some ["Default".toList]⟩) ∧
    ∀ cat ∈ (buildCatalog (fun r => r) RangeOrder.stored
        ⟨["hair/red".toList], some ["Default".toList]⟩ "nova".toList "Nova".toList
        []).Categories, cat.Key ≠ "animation".toList :=
  ⟨fun ks h => by cases h; decide, by decide,
    no_animation_category (fun r => r) RangeOrder.stored
      ⟨["hair/red".toList], some ["Default".toList]⟩ "nova".toList "Nova".toList []
      (fun ks h => by cases h; decide)
      (fun n hn sub opt ht => by
        rw [List.mem_singleton] at hn
        subst hn
        have hp := (parseSkin_eq_some_iff _ _ _ _).2 ht
        have hq : parseSkin (fun r => r) "hair/red".toList =
            some ("hair".toList, "red".toList) := by decide
        rw [hq] at hp
        cases hp
        decide)⟩


/-! ## `humanize` -/

theorem toNat_toUpperASCII (c : Char) :
    (toUpperASCII c).toNat =
      if 0x61 ≤ c.toNat ∧ c.toNat ≤ 0x7A then c.toNat - 32 else c.toNat := by
  unfold toUpperASCII
  split_ifs with h
  · exact toNat_ofNat_small _ (by omega)
  · rfl

theorem toNat_toLowerRune_ascii (lowerTable : Char → Char) (c : Char) (h : c.toNat < 0x80) :
    (toLowerRune lowerTable c).toNat =
      if 0x41 ≤ c.toNat ∧ c.toNat ≤ 0x5A then c.toNat + 32 else c.toNat := by
  unfold toLowerRune
  rw [if_pos (by omega)]
  split_ifs with h2
  · exact toNat_ofNat_small _ (by omega)
  · rfl

theorem isSpace_ascii (c : Char) (h : c.toNat < 0x80) :
    isSpace c = decide ((0x09 ≤ c.toNat ∧ c.toNat ≤ 0x0D) ∨ c.toNat = 0x20) := by
  unfold isSpace
  simp only []
  rw [Bool.eq_iff_iff]
  simp only [Bool.or_eq_true, Bool.and_eq_true, decide_eq_true_eq, beq_iff_eq]
  omega

theorem eq_underscore_iff (c : Char) : c = '_' ↔ c.toNat = 0x5F :=
  ⟨fun h => by rw [h]; rfl, fun h => char_eq_of_toNat_eq (by rw [h]; rfl)⟩

/-- A rune that can stand in a word of an ASCII identifier: ASCII, no white
space, no underscore. -/
theorem toUpperASCII_word (c : Char)
    (h : c.toNat < 0x80 ∧ isSpace c = false ∧ c ≠ '_') :
    (toUpperASCII c).toNat < 0x80 ∧ isSpace (toUpperASCII c) = false ∧ toUpperASCII c ≠ '_' ∧
      isLowerASCII (toUpperASCII c) = false := by
  obtain ⟨h1, h2, h3⟩ := h
  have hn := toNat_toUpperASCII c
  have h3 : c.toNat ≠ 0x5F := fun e => h3 ((eq_underscore_iff c).2 e)
  rw [isSpace_ascii c h1] at h2
  simp only [decide_eq_false_iff_not] at h2
  have hlt : (toUpperASCII c).toNat < 0x80 := by
    rw [hn]; split_ifs <;> omega
  refine ⟨hlt, ?_, ?_, ?_⟩
  · rw [isSpace_ascii _ hlt, hn]
    simp only [decide_eq_false_iff_not]
    split_ifs <;> omega
  · intro e
    rw [eq_underscore_iff, hn] at e
    split_ifs at e <;> omega
  · unfold isLowerASCII
    rw [hn]
    simp only [decide_eq_false_iff_not]
    split_ifs <;> omega

theorem toLowerRune_word (lowerTable : Char → Char) (c : Char)
    (h : c.toNat < 0x80 ∧ isSpace c = false ∧ c ≠ '_') :
    (toLowerRune lowerTable c).toNat < 0x80 ∧ isSpace (toLowerRune lowerTable c) = false ∧
      toLowerRune lowerTable c ≠ '_' ∧ isUpperASCII (toLowerRune lowerTable c) = false := by
  obtain ⟨h1, h2, h3⟩ := h
  have hn := toNat_toLowerRune_ascii lowerTable c h1
  have h3 : c.toNat ≠ 0x5F := fun e => h3 ((eq_underscore_iff c).2 e)
  rw [isSpace_ascii c h1] at h2
  simp only [decide_eq_false_iff_not] at h2
  have hlt : (toLowerRune lowerTable c).toNat < 0x80 := by
    rw [hn]; split_ifs <;> omega
  refine ⟨hlt, ?_, ?_, ?_⟩
  · rw [isSpace_ascii _ hlt, hn]
    simp only [decide_eq_false_iff_not]
    split_ifs <;> omega
  · intro e
    rw [eq_underscore_iff, hn] at e
    split_ifs at e <;> omega
  · unfold isUpperASCII
    rw [hn]
    simp only [decide_eq_false_iff_not]
    split_ifs <;> omega

theorem toUpperASCII_of_not_lower (c : Char) (h : isLowerASCII c = false) :
    toUpperASCII c = c := by
  unfold isLowerASCII at h
  unfold toUpperASCII
  rw [if_neg (by simpa using h)]

theorem toLowerRune_of_not_upper (lowerTable : Char → Char) (c : Char) (h1 : c.toNat < 0x80)
    (h : isUpperASCII c = false) : toLowerRune lowerTable c = c := by
  unfold isUpperASCII at h
  unfold toLowerRune
  rw [if_pos (by omega), if_neg (by simpa using h)]

theorem fieldsAux_forall (P : Char → Prop) (s : Str) :
    ∀ cur : Str, (∀ c ∈ cur, P c) → (∀ c ∈ s, P c) →
      ∀ w ∈ fieldsAux cur s, ∀ c ∈ w, P c := by
  induction s with
  | nil =>
    intro cur hcur _ w hw
    unfold fieldsAux at hw
    split_ifs at hw
    · cases hw
    · rw [List.mem_singleton] at hw
      subst hw
      exact hcur
  | cons x xs ih =>
    intro cur hcur hs w hw
    have hxs : ∀ c ∈ xs, P c := fun c hc => hs c (List.mem_cons_of_mem _ hc)
    unfold fieldsAux at hw
    split_ifs at hw with h1 h2
    · exact ih [] (fun c hc => by cases hc) hxs w hw
    · rcases List.mem_cons.1 hw with rfl | hw
      · exact hcur
      · exact ih [] (fun c hc => by cases hc) hxs w hw
    · refine ih (cur ++ [x]) ?_ hxs w hw
      intro c hc
      rcases List.mem_append.1 hc with hc | hc
      · exact hcur c hc
      · rw [List.mem_singleton] at hc
        subst hc
        exact hs c (List.mem_cons_self _ _)

theorem fieldsAux_words (s : Str) :
    ∀ cur : Str, (∀ c ∈ cur, isSpace c = false) →
      ∀ w ∈ fieldsAux cur s, w ≠ [] ∧ ∀ c ∈ w, isSpace c = false := by
  induction s with
  | nil =>
    intro cur hcur w hw
    unfold fieldsAux at hw
    split_ifs at hw with h
    · cases hw
    · rw [List.mem_singleton] at hw
      subst hw
      exact ⟨h, hcur⟩
  | cons x xs ih =>
    intro cur hcur w hw
    unfold fieldsAux at hw
    split_ifs at hw with h1 h2
    · exact ih [] (fun c hc => by cases hc) w hw
    · rcases List.mem_cons.1 hw with rfl | hw
      · exact ⟨h2, hcur⟩
      · exact ih [] (fun c hc => by cases hc) w hw
    · refine ih (cur ++ [x]) ?_ w hw
      intro c hc
      rcases List.mem_append.1 hc with hc | hc
      · exact hcur c hc
      · rw [List.mem_singleton] at hc
        subst hc
        simpa using h1

theorem fieldsAux_append_word (w : Str) (hw : ∀ c ∈ w, isSpace c = false) :
    ∀ (cur rest : Str), fieldsAux cur (w ++ rest) = fieldsAux (cur ++ w) rest := by
  induction w with
  | nil => intro cur rest; simp
  | cons x xs ih =>
    intro cur rest
    have hx : isSpace x = false := hw x (List.mem_cons_self _ _)
    have hxs : ∀ c ∈ xs, isSpace c = false := fun c hc => hw c (List.mem_cons_of_mem _ hc)
    rw [List.cons_append, fieldsAux]
    simp only [hx, Bool.false_eq_true, if_false]
    rw [ih hxs]
    simp

theorem Fields_JoinSpace (ws : List Str) :
    (∀ w ∈ ws, w ≠ [] ∧ ∀ c ∈ w, isSpace c = false) → Fields (JoinSpace ws) = ws := by
  induction ws with
  | nil => intro _; rfl
  | cons p rest ih =>
    intro h
    have hp := h p (List.mem_cons_self _ _)
    cases rest with
    | nil =>
      unfold Fields JoinSpace
      have := fieldsAux_append_word p hp.2 [] []
      rw [List.append_nil, List.nil_append] at this
      rw [this, fieldsAux, if_neg hp.1]
    | cons q rest =>
      have ih := ih (fun w hw => h w (List.mem_cons_of_mem _ hw))
      unfold Fields at ih ⊢
      rw [JoinSpace, fieldsAux_append_word p hp.2, List.nil_append, fieldsAux]
      have hsp : isSpace ' ' = true := by decide
      simp only [hsp, if_true, if_neg hp.1, ih]

theorem ReplaceUnderscores_runes (s : Str) (hs : ∀ c ∈ s, c.toNat < 0x80) :
    ∀ c ∈ ReplaceUnderscores s, c.toNat < 0x80 ∧ c ≠ '_' := by
  intro c hc
  unfold ReplaceUnderscores at hc
  obtain ⟨d, hd, rfl⟩ := List.mem_map.1 hc
  by_cases h : d = '_'
  · rw [if_pos h]
    exact ⟨by decide, by decide⟩
  · rw [if_neg h]
    exact ⟨hs d hd, h⟩

theorem ReplaceUnderscores_of_none (s : Str) (hs : ∀ c ∈ s, c ≠ '_') :
    ReplaceUnderscores s = s := by
  unfold ReplaceUnderscores
  conv_rhs => rw [← List.map_id s]
  apply List.map_congr_left
  intro c hc
  rw [if_neg (hs c hc)]
  rfl

theorem Fields_ReplaceUnderscores_words (s : Str) (hs : ∀ c ∈ s, c.toNat < 0x80) :
    ∀ w ∈ Fields (ReplaceUnderscores s),
      w ≠ [] ∧ ∀ c ∈ w, c.toNat < 0x80 ∧ isSpace c = false ∧ c ≠ '_' := by
  intro w hw
  unfold Fields at hw
  have h1 := fieldsAux_words (ReplaceUnderscores s) [] (fun c hc => by cases hc) w hw
  have h2 := fieldsAux_forall (fun c => c.toNat < 0x80 ∧ c ≠ '_') (ReplaceUnderscores s) []
    (fun c hc => by cases hc) (ReplaceUnderscores_runes s hs) w hw
  exact ⟨h1.1, fun c hc => ⟨(h2 c hc).1, h1.2 c hc, (h2 c hc).2⟩⟩

theorem humanizeWord_cons_ascii (lowerTable : Char → Char) (c : Char) (rest : Str)
    (h : c.toNat < 0x80) :
    humanizeWord lowerTable (c :: rest) = toUpperASCII c :: ToLower lowerTable rest := by
  simp only [humanizeWord, if_pos h]

theorem humanizeWord_word (lowerTable : Char → Char) (w : Str) (hne : w ≠ [])
    (hw : ∀ c ∈ w, c.toNat < 0x80 ∧ isSpace c = false ∧ c ≠ '_') :
    humanizeWord lowerTable w ≠ [] ∧
    (∀ c ∈ humanizeWord lowerTable w, c.toNat < 0x80 ∧ isSpace c = false ∧ c ≠ '_') ∧
    humanizeWord lowerTable (humanizeWord lowerTable w) = humanizeWord lowerTable w := by
  cases w with
  | nil => exact absurd rfl hne
  | cons c rest =>
    have hc := hw c (List.mem_cons_self _ _)
    have hrest : ∀ d ∈ rest, d.toNat < 0x80 ∧ isSpace d = false ∧ d ≠ '_' :=
      fun d hd => hw d (List.mem_cons_of_mem _ hd)
    have hu := toUpperASCII_word c hc
    have heq : humanizeWord lowerTable (c :: rest) =
        toUpperASCII c :: ToLower lowerTable rest :=
      humanizeWord_cons_ascii lowerTable c rest hc.1
    rw [heq]
    refine ⟨by simp, ?_, ?_⟩
    · intro d hd
      rcases List.mem_cons.1 hd with rfl | hd
      · exact ⟨hu.1, hu.2.1, hu.2.2.1⟩
      · unfold ToLower at hd
        obtain ⟨e, he, rfl⟩ := List.mem_map.1 hd
        have hl := toLowerRune_word lowerTable e (hrest e he)
        exact ⟨hl.1, hl.2.1, hl.2.2.1⟩
    · rw [humanizeWord_cons_ascii _ _ _ hu.1, toUpperASCII_of_not_lower _ hu.2.2.2]
      congr 1
      unfold ToLower
      rw [List.map_map]
      apply List.map_congr_left
      intro e he
      have hl := toLowerRune_word lowerTable e (hrest e he)
      exact toLowerRune_of_not_upper lowerTable _ hl.1 hl.2.2.2

theorem mem_JoinSpace (ws : List Str) (c : Char) (h : c ∈ JoinSpace ws) :
    c = ' ' ∨ ∃ w ∈ ws, c ∈ w := by
  induction ws with
  | nil => cases h
  | cons p rest ih =>
    cases rest with
    | nil =>
      unfold JoinSpace at h
      exact Or.inr ⟨p, List.mem_cons_self _ _, h⟩
    | cons q rest =>
      rw [JoinSpace, List.mem_append, List.mem_cons] at h
      rcases h with h | h | h
      · exact Or.inr ⟨p, List.mem_cons_self _ _, h⟩
      · exact Or.inl h
      · rcases ih h with h | ⟨w, hw, hc⟩
        · exact Or.inl h
        · exact Or.inr ⟨w, List.mem_cons_of_mem _ hw, hc⟩

/-- On ASCII text `humanize` is the transform of the specification, with the
ASCII upper-casing. -/
theorem humanize_eq_spec_of_ascii (lowerTable : Char → Char) (s : Str)
    (hs : ∀ c ∈ s, c.toNat < 0x80) :
    humanize lowerTable s = humanizeSpec toUpperASCII (toLowerRune lowerTable) s := by
  unfold humanize humanizeSpec
  split_ifs with h
  · subst h; rfl
  · congr 1
    apply List.map_congr_left
    intro w hw
    have hwd := Fields_ReplaceUnderscores_words s hs w hw
    cases w with
    | nil => rfl
    | cons c rest =>
      rw [humanizeWord_cons_ascii _ _ _ (hwd.2 c (List.mem_cons_self _ _)).1]
      rfl

/-- C11.  On an identifier whose word starts with a rune outside ASCII the code
does not do what the claim says: `humanize` of `émile`, written with U+00E9, is
two U+FFFD followed by `mile`, six runes, where the transform of the claim gives
the upper-cased first rune followed by `mile`, five runes, whatever the case
tables.  The three examples of the claim are as it states them. -/
theorem humanize_non_ascii_first_rune (lowerTable upper : Char → Char) :
    humanize lowerTable [Char.ofNat 0xE9, 'm', 'i', 'l', 'e'] =
      [Char.ofNat 0xFFFD, Char.ofNat 0xFFFD, 'm', 'i', 'l', 'e'] ∧
    humanizeSpec upper (toLowerRune lowerTable) [Char.ofNat 0xE9, 'm', 'i', 'l', 'e'] =
      [upper (Char.ofNat 0xE9), 'm', 'i', 'l', 'e'] ∧
    humanize lowerTable [Char.ofNat 0xE9, 'm', 'i', 'l', 'e'] ≠
      humanizeSpec upper (toLowerRune lowerTable) [Char.ofNat 0xE9, 'm', 'i', 'l', 'e'] ∧
    humanize lowerTable "hello_world".toList = "Hello World".toList ∧
    humanize lowerTable "".toList = "".toList ∧
    humanize lowerTable "A_B_C".toList = "A B C".toList := by
  have h1 : humanize lowerTable [Char.ofNat 0xE9, 'm', 'i', 'l', 'e'] =
      [Char.ofNat 0xFFFD, Char.ofNat 0xFFFD, 'm', 'i', 'l', 'e'] := rfl
  have h2 : humanizeSpec upper (toLowerRune lowerTable) [Char.ofNat 0xE9, 'm', 'i', 'l', 'e'] =
      [upper (Char.ofNat 0xE9), 'm', 'i', 'l', 'e'] := rfl
  refine ⟨h1, h2, ?_, rfl, rfl, rfl⟩
  rw [h1, h2]
  intro h
  have hlen := congrArg List.length h
  simp only [List.length_cons, List.length_nil] at hlen
  omega

/-- C12.  On ASCII text `humanize` applied twice is `humanize` applied once;
and a text that is one ASCII word, an upper-case letter followed by runes that
are no upper-case letter, no white space and no underscore, is left as it is. -/
theorem humanize_idempotent (lowerTable : Char → Char) (s : Str)
    (hs : ∀ c ∈ s, c.toNat < 0x80) :
    humanize lowerTable (humanize lowerTable s) = humanize lowerTable s ∧
    (∀ c rest, s = c :: rest → isUpperASCII c = true →
      (∀ d ∈ rest, isUpperASCII d = false ∧ isSpace d = false ∧ d ≠ '_') →
      humanize lowerTable s = s) := by
  constructor
  · by_cases h : s = []
    · subst h; rfl
    · have hwords := Fields_ReplaceUnderscores_words s hs
      have hh : humanize lowerTable s =
          JoinSpace ((Fields (ReplaceUnderscores s)).map (humanizeWord lowerTable)) := by
        unfold humanize
        rw [if_neg h]
      have hmapped : ∀ w ∈ (Fields (ReplaceUnderscores s)).map (humanizeWord lowerTable),
          (w ≠ [] ∧ ∀ c ∈ w, isSpace c = false) ∧ (∀ c ∈ w, c ≠ '_') ∧
            humanizeWord lowerTable w = w := by
        intro w hw
        obtain ⟨v, hv, rfl⟩ := List.mem_map.1 hw
        have := humanizeWord_word lowerTable v (hwords v hv).1 (hwords v hv).2
        exact ⟨⟨this.1, fun c hc => (this.2.1 c hc).2.1⟩, fun c hc => (this.2.1 c hc).2.2,
          this.2.2⟩
      rw [hh]
      generalize (Fields (ReplaceUnderscores s)).map (humanizeWord lowerTable) = hw at hmapped
      unfold humanize
      split_ifs with hnil
      · rfl
      · have hrep : ReplaceUnderscores (JoinSpace hw) = JoinSpace hw := by
          apply ReplaceUnderscores_of_none
          intro c hc
          rcases mem_JoinSpace hw c hc with rfl | ⟨w, hwm, hcw⟩
          · decide
          · exact (hmapped w hwm).2.1 c hcw
        rw [hrep, Fields_JoinSpace hw (fun w hwm => (hmapped w hwm).1)]
        congr 1
        conv_rhs => rw [← List.map_id hw]
        apply List.map_congr_left
        intro w hwm
        exact (hmapped w hwm).2.2
  · intro c rest hcr hup hrest
    subst hcr
    have hc := hs c (List.mem_cons_self _ _)
    have hcn : 0x41 ≤ c.toNat ∧ c.toNat ≤ 0x5A := by
      unfold isUpperASCII at hup
      simpa using hup
    have hcsp : isSpace c = false := by
      rw [isSpace_ascii c hc]
      simp only [decide_eq_false_iff_not]
      omega
    have hcu : c ≠ '_' := by
      intro e
      rw [eq_underscore_iff] at e
      omega
    have hnous : ∀ d ∈ c :: rest, d ≠ '_' := by
      intro d hd
      rcases List.mem_cons.1 hd with rfl | hd
      · exact hcu
      · exact (hrest d hd).2.2
    have hnosp : ∀ d ∈ c :: rest, isSpace d = false := by
      intro d hd
      rcases List.mem_cons.1 hd with rfl | hd
      · exact hcsp
      · exact (hrest d hd).2.1
    have hf : Fields (c :: rest) = [c :: rest] := by
      have := Fields_JoinSpace [c :: rest] (fun w hw => by
        rw [List.mem_singleton] at hw
        subst hw
        exact ⟨by simp, hnosp⟩)
      exact this
    unfold humanize
    rw [if_neg (by simp), ReplaceUnderscores_of_none _ hnous, hf]
    simp only [List.map_cons, List.map_nil, JoinSpace]
    rw [humanizeWord_cons_ascii _ _ _ hc]
    have hlow : isLowerASCII c = false := by
      unfold isLowerASCII
      simp only [decide_eq_false_iff_not]
      omega
    rw [toUpperASCII_of_not_lower c hlow]
    congr 1
    unfold ToLower
    conv_rhs => rw [← List.map_id rest]
    apply List.map_congr_left
    intro d hd
    exact toLowerRune_of_not_upper lowerTable d (hs d (List.mem_cons_of_mem _ hd))
      (hrest d hd).1

/-- C12 on the text `Hello_wORLD  x` and on the word `Hello`. -/
theorem humanize_idempotent_witness :
    (∀ c ∈ "Hello".toList, c.toNat < 0x80) ∧
    humanize (fun r => r) (humanize (fun r => r) "Hello".toList) =
      humanize (fun r => r) "Hello".toList ∧
    humanize (fun r => r) "Hello".toList = "Hello".toList ∧
    humanize (fun r => r) "Hello_wORLD  x".toList = "Hello World X".toList ∧
    humanize (fun r => r) "Hello World X".toList = "Hello World X".toList :=
  ⟨by decide, (humanize_idempotent (fun r => r) "Hello".toList (by decide)).1,
    (humanize_idempotent (fun r => r) "Hello".toList (by decide)).2 'H' "ello".toList rfl
      (by decide) (by decide), by decide, by decide⟩


/-! ## The end-to-end scenario -/

theorem rangeOrder_singleton (ρ : RangeOrder) (e : Str × List Str) : ρ.order [e] = [e] :=
  List.perm_singleton.1 (ρ.perm [e])

theorem scenario_categories (lowerTable : Char → Char) (ρ : RangeOrder)
    (slug previewBase : Str) :
    buildCategories lowerTable ρ
        [("Hair".toList, ["red".toList]), ("dress".toList, ["blue".toList]),
          ("animation".toList, ["idle".toList])] slug previewBase =
      [⟨"body".toList, "Body".toList,
          [⟨"Hair".toList, "Hair".toList,
            [⟨"red".toList, "Red".toList, "Hair/red".toList,
              (renderOption lowerTable "Hair".toList slug previewBase false 0
                "red".toList).PreviewURL⟩]⟩]⟩,
        ⟨"fashion".toList, "Fashion".toList,
          [⟨"dress".toList, "dress".toList,
            [⟨"blue".toList, "Blue".toList, "dress/blue".toList,
              (renderOption lowerTable "dress".toList slug previewBase false 0
                "blue".toList).PreviewURL⟩]⟩]⟩,
        ⟨"animation".toList, "Animation".toList,
          [⟨"animation".toList, "animation".toList,
            [⟨"idle".toList, "Idle".toList, [], []⟩]⟩]⟩] := by
  have hb : bucket lowerTable "body".toList
      [("Hair".toList, ["red".toList]), ("dress".toList, ["blue".toList]),
        ("animation".toList, ["idle".toList])] = [("Hair".toList, ["red".toList])] := rfl
  have hf : bucket lowerTable "fashion".toList
      [("Hair".toList, ["red".toList]), ("dress".toList, ["blue".toList]),
        ("animation".toList, ["idle".toList])] = [("dress".toList, ["blue".toList])] := rfl
  have ha : bucket lowerTable "animation".toList
      [("Hair".toList, ["red".toList]), ("dress".toList, ["blue".toList]),
        ("animation".toList, ["idle".toList])] = [("animation".toList, ["idle".toList])] := rfl
  unfold buildCategories
  simp only [hb, hf, ha]
  unfold buildSubcategoryList
  simp only [rangeOrder_singleton]
  rfl

/-- C13.  For the skins `Hair/red`, `dress/blue`, `default` and the clips
`idle` and `Default`, in either order, the categories are `body` with the one
subcategory `Hair` and its one option `red` (label `Red`, skin name
`Hair/red`), `fashion` with the one subcategory `dress` and its one option
`blue` (label `Blue`, skin name `dress/blue`), and `animation` with the one
subcategory `animation` and its one option `idle` (label `Idle`, empty skin
name and preview URL), in this order, whatever the slug, the CDN base and the
order in which the maps are ranged over. -/
theorem scenario_catalog (lowerTable : Char → Char) (ρ : RangeOrder)
    (slug avatarName cdnBase : Str) :
    (buildCatalog lowerTable ρ
        ⟨["Hair/red".toList, "dress/blue".toList, "default".toList],
          some ["idle".toList, "Default".toList]⟩ slug avatarName cdnBase).Categories =
      [⟨"body".toList, "Body".toList,
          [⟨"Hair".toList, "Hair".toList,
            [⟨"red".toList, "Red".toList, "Hair/red".toList,
              (renderOption lowerTable "Hair".toList slug (previewBaseOf slug cdnBase) false 0
                "red".toList).PreviewURL⟩]⟩]⟩,
        ⟨"fashion".toList, "Fashion".toList,
          [⟨"dress".toList, "dress".toList,
            [⟨"blue".toList, "Blue".toList, "dress/blue".toList,
              (renderOption lowerTable "dress".toList slug (previewBaseOf slug cdnBase) false 0
                "blue".toList).PreviewURL⟩]⟩]⟩,
        ⟨"animation".toList, "Animation".toList,
          [⟨"animation".toList, "animation".toList,
            [⟨"idle".toList, "Idle".toList, [], []⟩]⟩]⟩] ∧
    (buildCatalog lowerTable ρ
        ⟨["Hair/red".toList, "dress/blue".toList, "default".toList],
          some ["Default".toList, "idle".toList]⟩ slug avatarName cdnBase).Categories =
      (buildCatalog lowerTable ρ
        ⟨["Hair/red".toList, "dress/blue".toList, "default".toList],
          some ["idle".toList, "Default".toList]⟩ slug avatarName cdnBase).Categories ∧
    (buildCatalog (fun r => r) RangeOrder.stored
        ⟨["Hair/red".toList, "dress/blue".toList, "default".toList],
          some ["idle".toList, "Default".toList]⟩ "nova".toList "Nova".toList []).Categories =
      [⟨"body".toList, "Body".toList,
          [⟨"Hair".toList, "Hair".toList,
            [⟨"red".toList, "Red".toList, "Hair/red".toList,
              "catalog/nova/Hair/1.webp".toList⟩]⟩]⟩,
        ⟨"fashion".toList, "Fashion".toList,
          [⟨"dress".toList, "dress".toList,
            [⟨"blue".toList, "Blue".toList, "dress/blue".toList,
              "catalog/nova/dress/1.webp".toList⟩]⟩]⟩,
        ⟨"animation".toList, "Animation".toList,
          [⟨"animation".toList, "animation".toList,
            [⟨"idle".toList, "Idle".toList, [], []⟩]⟩]⟩] := by
  have hT : ∀ anims ∈ [["idle".toList, "Default".toList], ["Default".toList, "idle".toList]],
      buildTable lowerTable
        ⟨["Hair/red".toList, "dress/blue".toList, "default".toList], some anims⟩ =
      [("Hair".toList, ["red".toList]), ("dress".toList, ["blue".toList]),
        ("animation".toList, ["idle".toList])] := by
    intro anims h
    simp only [List.mem_cons, List.mem_singleton, List.not_mem_nil, or_false] at h
    rcases h with rfl | rfl <;> rfl
  refine ⟨?_, ?_, by decide⟩
  · simp only [buildCatalog]
    rw [hT _ (List.mem_cons_self _ _)]
    exact scenario_categories lowerTable ρ slug _
  · simp only [buildCatalog]
    rw [hT _ (List.mem_cons_self _ _), hT _ (List.mem_cons_of_mem _ (List.mem_cons_self _ _))]


/-! ## The manifest builder -/

theorem makeEntry_slug (lowerTable : Char → Char) (stat : FileSystem)
    (baseURL assetsBase catalogBase slug txtPath : Str) (n : Nat) :
    (makeEntry lowerTable stat baseURL assetsBase catalogBase slug txtPath n).Slug = slug := by
  unfold makeEntry
  split_ifs <;> rfl

theorem makeEntry_sortOrder (lowerTable : Char → Char) (stat : FileSystem)
    (baseURL assetsBase catalogBase slug txtPath : Str) (n : Nat) :
    (makeEntry lowerTable stat baseURL assetsBase catalogBase slug txtPath n).SortOrder = n := by
  unfold makeEntry
  split_ifs <;> rfl

theorem probeFiles_eq_none_iff (stat : FileSystem) (slug : Str) :
    probeFiles stat slug = none ↔
      stat slug (slug ++ ".json".toList) = false ∧
        stat slug (slug ++ ".atlas.txt".toList) = false := by
  unfold probeFiles
  cases stat slug (slug ++ ".json".toList) <;>
    cases stat slug (slug ++ ".atlas.txt".toList) <;> simp

theorem isScanned_eq_false_iff (stat : FileSystem) (d : DirEntry) :
    isScanned stat d = false ↔ d.IsDir = false ∨ probeFiles stat d.Name = none := by
  rw [probeFiles_eq_none_iff]
  unfold isScanned
  cases d.IsDir <;> cases stat d.Name (d.Name ++ ".json".toList) <;>
    cases stat d.Name (d.Name ++ ".atlas.txt".toList) <;> simp

theorem scanLoop_slugs (lowerTable : Char → Char) (stat : FileSystem)
    (baseURL assetsBase catalogBase : Str) (dirs : List DirEntry) :
    ∀ (n : Nat) (entries : List ManifestEntry),
      (scanLoop lowerTable stat baseURL assetsBase catalogBase dirs n entries).map
          ManifestEntry.Slug =
        entries.map ManifestEntry.Slug ++
          (dirs.filter (isScanned stat)).map DirEntry.Name := by
  induction dirs with
  | nil => intro n entries; simp [scanLoop]
  | cons d rest ih =>
    intro n entries
    unfold scanLoop
    by_cases hd : d.IsDir = false
    · rw [if_pos hd, ih, List.filter_cons_of_neg (by
        rw [Bool.not_eq_true, isScanned_eq_false_iff]; exact Or.inl hd)]
    · rw [if_neg hd]
      cases hp : probeFiles stat d.Name with
      | none =>
        simp only []
        rw [ih, List.filter_cons_of_neg (by
          rw [Bool.not_eq_true, isScanned_eq_false_iff]; exact Or.inr hp)]
      | some t =>
        simp only []
        have hs : isScanned stat d = true := by
          cases h : isScanned stat d with
          | true => rfl
          | false =>
            rcases (isScanned_eq_false_iff stat d).1 h with h | h
            · exact absurd h hd
            · rw [hp] at h; cases h
        rw [ih, List.filter_cons_of_pos hs, List.map_append, List.map_cons, List.map_nil,
          makeEntry_slug, List.map_cons, List.append_assoc, List.singleton_append]

theorem scanLoop_sortOrders (lowerTable : Char → Char) (stat : FileSystem)
    (baseURL assetsBase catalogBase : Str) (dirs : List DirEntry) :
    ∀ (n : Nat) (entries : List ManifestEntry),
      (scanLoop lowerTable stat baseURL assetsBase catalogBase dirs n entries).map
          ManifestEntry.SortOrder =
        entries.map ManifestEntry.SortOrder ++
          List.range' n (dirs.filter (isScanned stat)).length := by
  induction dirs with
  | nil => intro n entries; simp [scanLoop]
  | cons d rest ih =>
    intro n entries
    unfold scanLoop
    by_cases hd : d.IsDir = false
    · rw [if_pos hd, ih, List.filter_cons_of_neg (by
        rw [Bool.not_eq_true, isScanned_eq_false_iff]; exact Or.inl hd)]
    · rw [if_neg hd]
      cases hp : probeFiles stat d.Name with
      | none =>
        simp only []
        rw [ih, List.filter_cons_of_neg (by
          rw [Bool.not_eq_true, isScanned_eq_false_iff]; exact Or.inr hp)]
      | some t =>
        simp only []
        have hs : isScanned stat d = true := by
          cases h : isScanned stat d with
          | true => rfl
          | false =>
            rcases (isScanned_eq_false_iff stat d).1 h with h | h
            · exact absurd h hd
            · rw [hp] at h; cases h
        rw [ih, List.filter_cons_of_pos hs, List.map_append, List.map_cons, List.map_nil,
          makeEntry_sortOrder, List.length_cons, List.range'_succ, List.append_assoc,
          List.singleton_append]

theorem mem_scanLoop (lowerTable : Char → Char) (stat : FileSystem)
    (baseURL assetsBase catalogBase : Str) (dirs : List DirEntry) :
    ∀ (n : Nat) (entries : List ManifestEntry) (e : ManifestEntry),
      e ∈ scanLoop lowerTable stat baseURL assetsBase catalogBase dirs n entries →
      e ∈ entries ∨ ∃ d ∈ dirs, ∃ t k, probeFiles stat d.Name = some t ∧
        e = makeEntry lowerTable stat baseURL assetsBase catalogBase d.Name t k := by
  induction dirs with
  | nil => intro n entries e h; exact Or.inl h
  | cons d rest ih =>
    intro n entries e h
    unfold scanLoop at h
    have hstep : ∀ m es, e ∈ scanLoop lowerTable stat baseURL assetsBase catalogBase rest m es →
        e ∈ es ∨ ∃ d' ∈ d :: rest, ∃ t k, probeFiles stat d'.Name = some t ∧
          e = makeEntry lowerTable stat baseURL assetsBase catalogBase d'.Name t k := by
      intro m es hm
      rcases ih m es e hm with h1 | ⟨d', hd', t, k, hp, he⟩
      · exact Or.inl h1
      · exact Or.inr ⟨d', List.mem_cons_of_mem _ hd', t, k, hp, he⟩
    split_ifs at h with hd
    · exact hstep _ _ h
    · cases hp : probeFiles stat d.Name with
      | none =>
        rw [hp] at h
        exact hstep _ _ h
      | some t =>
        rw [hp] at h
        rcases hstep _ _ h with h1 | h2
        · rcases List.mem_append.1 h1 with h1 | h1
          · exact Or.inl h1
          · rw [List.mem_singleton] at h1
            exact Or.inr ⟨d, List.mem_cons_self _ _, t, n, hp, h1⟩
        · exact Or.inr h2

/-- C14.  A directory `nova` that holds `nova.txt` and neither `nova.json` nor
`nova.atlas.txt` is skipped, although an atlas file is there: the slugs of the
entries `scanAvatars` returns are the names of the directories that hold their
`.json` or their `.atlas.txt`, the plain `.txt` is never looked at when the
skip is decided. -/
theorem scanAvatars_txt_only_skipped (lowerTable : Char → Char) (stat : FileSystem)
    (dirs : List DirEntry) (baseURL : Str) :
    scanAvatars lowerTable (fun slug file => decide (file = slug ++ ".txt".toList))
        [⟨"nova".toList, true⟩] baseURL = [] ∧
    (scanAvatars lowerTable stat dirs baseURL).map ManifestEntry.Slug =
      (dirs.filter (fun d => d.IsDir && (stat d.Name (d.Name ++ ".json".toList) ||
        stat d.Name (d.Name ++ ".atlas.txt".toList)))).map DirEntry.Name := by
  refine ⟨rfl, ?_⟩
  unfold scanAvatars
  rw [scanLoop_slugs]
  rfl


/-! ## The order of the manifest -/

theorem sortOrders_of_scanAvatars (lowerTable : Char → Char) (stat : FileSystem)
    (dirs : List DirEntry) (baseURL : Str) :
    (scanAvatars lowerTable stat dirs baseURL).map ManifestEntry.SortOrder =
      List.range' 1 (scanAvatars lowerTable stat dirs baseURL).length := by
  have h := scanLoop_sortOrders lowerTable stat (TrimSuffixSlash baseURL)
    (TrimSuffixSlash baseURL ++ "/avatars".toList)
    (TrimSuffixSlash baseURL ++ "/catalog".toList) dirs 1 []
  have hl := congrArg List.length h
  simp only [List.length_map, List.map_nil, List.nil_append, List.length_range'] at hl
  unfold scanAvatars
  rw [h, hl]
  rfl

theorem lessEntry_eq_false_of_lt (a b : ManifestEntry) (h : a.SortOrder < b.SortOrder) :
    lessEntry b a = false := by
  unfold lessEntry
  rw [if_pos (by omega)]
  simp only [decide_eq_false_iff_not]
  omega

theorem entryOrdered_iff (a b : ManifestEntry) :
    lessEntry b a = false ↔ EntryOrdered a b := by
  unfold lessEntry EntryOrdered
  by_cases h : b.SortOrder = a.SortOrder
  · rw [if_neg (by simpa using h)]
    constructor
    · intro hl
      exact Or.inr ⟨h.symm, hl⟩
    · rintro (hl | hl)
      · omega
      · exact hl.2
  · rw [if_pos h]
    simp only [decide_eq_false_iff_not]
    constructor
    · intro hl
      exact Or.inl (by omega)
    · rintro (hl | hl)
      · omega
      · exact absurd hl.1.symm h

theorem EntryOrdered.trans {a b c : ManifestEntry} (hab : EntryOrdered a b)
    (hbc : EntryOrdered b c) : EntryOrdered a c := by
  unfold EntryOrdered at *
  rcases hab with h1 | ⟨h1, h2⟩
  · rcases hbc with h3 | ⟨h3, _⟩
    · exact Or.inl (by omega)
    · exact Or.inl (by omega)
  · rcases hbc with h3 | ⟨h3, h4⟩
    · exact Or.inl (by omega)
    · exact Or.inr ⟨by omega, not_lessStr_trans _ _ _ h2 h4⟩

theorem entryOrdered_of_lessEntry (a b : ManifestEntry) (h : lessEntry a b = true) :
    EntryOrdered a b := by
  unfold lessEntry at h
  unfold EntryOrdered
  split_ifs at h with hne
  · exact Or.inl (by simpa using h)
  · exact Or.inr ⟨by simpa using hne, lessStr_asymm _ _ h⟩

theorem insertEntry_perm (x : ManifestEntry) (l : List ManifestEntry) :
    (insertEntry x l).Perm (x :: l) := by
  induction l with
  | nil => exact List.Perm.refl _
  | cons y ys ih =>
    unfold insertEntry
    split_ifs
    · exact (List.Perm.cons y ih).trans (List.Perm.swap x y ys)
    · exact List.Perm.refl _

theorem sortEntries_perm (l : List ManifestEntry) : (sortEntries l).Perm l := by
  induction l with
  | nil => exact List.Perm.refl _
  | cons x xs ih => exact (insertEntry_perm x _).trans (List.Perm.cons x ih)

theorem insertEntry_ordered (x : ManifestEntry) (l : List ManifestEntry)
    (h : l.Pairwise EntryOrdered) : (insertEntry x l).Pairwise EntryOrdered := by
  induction l with
  | nil => simp [insertEntry]
  | cons y ys ih =>
    rw [List.pairwise_cons] at h
    unfold insertEntry
    split_ifs with hyx
    · rw [List.pairwise_cons]
      refine ⟨?_, ih h.2⟩
      intro z hz
      rcases List.mem_cons.1 ((insertEntry_perm x ys).mem_iff.1 hz) with rfl | hz
      · exact entryOrdered_of_lessEntry _ _ hyx
      · exact h.1 z hz
    · rw [List.pairwise_cons]
      refine ⟨?_, List.pairwise_cons.2 h⟩
      have hxy : EntryOrdered x y := (entryOrdered_iff x y).1 (by simpa using hyx)
      intro z hz
      rcases List.mem_cons.1 hz with rfl | hz
      · exact hxy
      · exact hxy.trans (h.1 z hz)

theorem sortEntries_ordered (l : List ManifestEntry) :
    (sortEntries l).Pairwise EntryOrdered := by
  induction l with
  | nil => simp [sortEntries]
  | cons x xs ih => exact insertEntry_ordered x _ ih

theorem sortEntries_of_ordered (l : List ManifestEntry) (h : l.Pairwise EntryOrdered) :
    sortEntries l = l := by
  induction l with
  | nil => rfl
  | cons x xs ih =>
    rw [List.pairwise_cons] at h
    rw [sortEntries, ih h.2]
    cases xs with
    | nil => rfl
    | cons y ys =>
      unfold insertEntry
      rw [if_neg]
      have := (entryOrdered_iff x y).2 (h.1 y (List.mem_cons_self _ _))
      simp [this]

theorem scanAvatars_ordered (lowerTable : Char → Char) (stat : FileSystem)
    (dirs : List DirEntry) (baseURL : Str) :
    (scanAvatars lowerTable stat dirs baseURL).Pairwise EntryOrdered := by
  have h := sortOrders_of_scanAvatars lowerTable stat dirs baseURL
  have hp : ((scanAvatars lowerTable stat dirs baseURL).map ManifestEntry.SortOrder).Pairwise
      (fun a b => a < b) := by
    rw [h]
    exact List.pairwise_lt_range' 1 _
  rw [List.pairwise_map] at hp
  exact hp.imp (fun hab => Or.inl hab)

/-- C15.  The sort orders of the entries `scanAvatars` returns are 1, 2, 3, ...
in the order of the entries, one number for each entry and none for an entry of
the listing that is no directory or is skipped; and the sort of `main` leaves
the list as it is, so every entry keeps its sort order. -/
theorem scanAvatars_sortOrder (lowerTable : Char → Char) (stat : FileSystem)
    (dirs : List DirEntry) (baseURL : Str) :
    (scanAvatars lowerTable stat dirs baseURL).map ManifestEntry.SortOrder =
      List.range' 1 (scanAvatars lowerTable stat dirs baseURL).length ∧
    (scanAvatars lowerTable stat dirs baseURL).length =
      (dirs.filter (isScanned stat)).length ∧
    sortEntries (scanAvatars lowerTable stat dirs baseURL) =
      scanAvatars lowerTable stat dirs baseURL ∧
    (∀ k e, (scanAvatars lowerTable stat dirs baseURL)[k]? = some e → e.SortOrder = k + 1) := by
  have h := sortOrders_of_scanAvatars lowerTable stat dirs baseURL
  refine ⟨h, ?_, sortEntries_of_ordered _ (scanAvatars_ordered _ _ _ _), ?_⟩
  · have hs := congrArg List.length (scanLoop_slugs lowerTable stat (TrimSuffixSlash baseURL)
      (TrimSuffixSlash baseURL ++ "/avatars".toList)
      (TrimSuffixSlash baseURL ++ "/catalog".toList) dirs 1 [])
    simpa [scanAvatars] using hs
  · intro k e hk
    have h2 : ((scanAvatars lowerTable stat dirs baseURL).map ManifestEntry.SortOrder)[k]? =
        some e.SortOrder := by
      rw [List.getElem?_map, hk]
      rfl
    rw [h] at h2
    have hlt : k < (scanAvatars lowerTable stat dirs baseURL).length := by
      by_contra hge
      rw [List.getElem?_eq_none (by omega)] at hk
      cases hk
    rw [List.getElem?_range' _ _ hlt] at h2
    simp only [Option.some.injEq] at h2
    omega

theorem eq_of_perm_of_sortOrders (l₁ : List ManifestEntry) :
    ∀ l₂ : List ManifestEntry, l₁.Perm l₂ →
      l₁.map ManifestEntry.SortOrder = l₂.map ManifestEntry.SortOrder →
      (l₂.map ManifestEntry.SortOrder).Nodup → l₁ = l₂ := by
  induction l₁ with
  | nil => intro l₂ hp _ _; exact hp.nil_eq
  | cons a t₁ ih =>
    intro l₂ hp hm hn
    cases l₂ with
    | nil => exact absurd hp.symm.nil_eq (by simp)
    | cons b t₂ =>
      simp only [List.map_cons, List.cons.injEq] at hm
      rw [List.map_cons, List.nodup_cons] at hn
      have hab : a = b := by
        rcases List.mem_cons.1 (hp.mem_iff.1 (List.mem_cons_self a t₁)) with h | h
        · exact h
        · exfalso
          apply hn.1
          rw [← hm.1]
          exact List.mem_map.2 ⟨a, h, rfl⟩
      subst hab
      rw [ih t₂ ((List.perm_cons a).1 hp) hm.2 hn.2]

/-- Whatever the sorting algorithm: a permutation of the entries `scanAvatars`
returned that is in the order of the manifest is the list `scanAvatars`
returned. -/
theorem manifest_unique (lowerTable : Char → Char) (stat : FileSystem)
    (dirs : List DirEntry) (baseURL : Str) (out : List ManifestEntry)
    (hp : out.Perm (scanAvatars lowerTable stat dirs baseURL))
    (hs : out.Pairwise EntryOrdered) : out = scanAvatars lowerTable stat dirs baseURL := by
  have hso := sortOrders_of_scanAvatars lowerTable stat dirs baseURL
  have hnd : ((scanAvatars lowerTable stat dirs baseURL).map ManifestEntry.SortOrder).Nodup := by
    rw [hso]
    exact List.nodup_range' 1 _
  have hle₂ : ((scanAvatars lowerTable stat dirs baseURL).map
      ManifestEntry.SortOrder).Pairwise (fun a b => a ≤ b) := by
    rw [hso]
    exact (List.pairwise_lt_range' 1 _).imp (fun h => Nat.le_of_lt h)
  have hle₁ : (out.map ManifestEntry.SortOrder).Pairwise (fun a b => a ≤ b) := by
    rw [List.pairwise_map]
    refine hs.imp ?_
    intro a b hab
    rcases hab with h | h
    · exact Nat.le_of_lt h
    · exact Nat.le_of_eq h.1
  have hmap : out.map ManifestEntry.SortOrder =
      (scanAvatars lowerTable stat dirs baseURL).map ManifestEntry.SortOrder :=
    List.eq_of_perm_of_sorted (hp.map _) hle₁ hle₂
  exact eq_of_perm_of_sortOrders out _ hp hmap hnd

/-- C16.  The manifest `main` writes is a permutation of the entries
`scanAvatars` returned, and of two neighbours of it the first has the smaller
sort order, or the same sort order and an avatar name that is not greater; it is
the only permutation of these entries in that order. -/
theorem manifest_sorted (lowerTable : Char → Char) (stat : FileSystem)
    (dirs : List DirEntry) (baseURL : Str) (out : List ManifestEntry)
    (h : manifest lowerTable stat dirs baseURL = some out) :
    out.Chain' EntryOrdered ∧ out.Pairwise EntryOrdered ∧
      out.Perm (scanAvatars lowerTable stat dirs baseURL) ∧
      ∀ out' : List ManifestEntry, out'.Perm (scanAvatars lowerTable stat dirs baseURL) →
        out'.Pairwise EntryOrdered → out' = out := by
  unfold manifest at h
  split_ifs at h
  cases h
  refine ⟨(sortEntries_ordered _).chain', sortEntries_ordered _, sortEntries_perm _, ?_⟩
  intro out' hp hs
  rw [manifest_unique _ _ _ _ out' hp hs,
    manifest_unique _ _ _ _ _ (sortEntries_perm _) (sortEntries_ordered _)]


/-- C16 on a listing with the directories `nova` and `b_b` and the file
`readme.md`, every file there. -/
theorem manifest_sorted_witness :
    manifest (fun r => r) (fun _ _ => true)
        [⟨"nova".toList, true⟩, ⟨"readme.md".toList, false⟩, ⟨"b_b".toList, true⟩] [] =
      some (sortEntries (scanAvatars (fun r => r) (fun _ _ => true)
        [⟨"nova".toList, true⟩, ⟨"readme.md".toList, false⟩, ⟨"b_b".toList, true⟩] [])) ∧
    (sortEntries (scanAvatars (fun r => r) (fun _ _ => true)
        [⟨"nova".toList, true⟩, ⟨"readme.md".toList, false⟩, ⟨"b_b".toList, true⟩] [])).map
        (fun e => (e.SortOrder, e.AvatarName)) = [(1, "Nova".toList), (2, "B B".toList)] ∧
    (sortEntries (scanAvatars (fun r => r) (fun _ _ => true)
        [⟨"nova".toList, true⟩, ⟨"readme.md".toList, false⟩, ⟨"b_b".toList, true⟩] [])).Chain'
        EntryOrdered :=
  ⟨by decide, by decide,
    (manifest_sorted (fun r => r) (fun _ _ => true)
      [⟨"nova".toList, true⟩, ⟨"readme.md".toList, false⟩, ⟨"b_b".toList, true⟩] [] _
      (by decide)).1⟩

/-! ## The URLs of the manifest -/

theorem assetsBase_slash (b : Str) :
    b ++ "/avatars".toList ++ "/".toList = b ++ "/avatars/".toList := by
  rw [List.append_assoc]
  rfl

theorem catalogBase_slash (b : Str) :
    b ++ "/catalog".toList ++ "/".toList = b ++ "/catalog/".toList := by
  rw [List.append_assoc]
  rfl

theorem probeFiles_of_json (stat : FileSystem) (slug : Str)
    (h : stat slug (slug ++ ".json".toList) = true) :
    probeFiles stat slug = some (slug ++ ".txt".toList) := by
  unfold probeFiles
  rw [h]
  rfl

/-- C17, as the claim states it, fails on the base URL `/`: it is not empty, and
the URLs of the entry are empty, where the claim gives `/avatars/nova/nova.png`
for the preview. -/
theorem manifest_urls_counterexample :
    "/".toList ≠ [] ∧
    TrimSuffixSlash "/".toList ++ "/avatars/".toList ++ "nova".toList ++ "/".toList ++
      "nova".toList ++ ".png".toList = "/avatars/nova/nova.png".toList ∧
    (scanAvatars (fun r => r) (fun _ _ => true) [⟨"nova".toList, true⟩] "/".toList).map
      (fun e => (e.Slug, e.PreviewURL, e.BaseAtlasURL, e.BaseJSONURL, e.BasePNGURL,
        e.CatalogURL)) = [("nova".toList, [], [], [], [], [])] :=
  ⟨by decide, by decide, rfl⟩

/-- C17, amended.  For an entry of slug `s` that `scanAvatars` returns on the
base URL `b`, with `b'` for `b` without one trailing `/`: when `b'` is empty the
five URLs are empty; otherwise the preview and the PNG URL are
`b'/avatars/s/s.png`, the JSON URL is `b'/avatars/s/s.json`, the catalog URL is
`b'/catalog/s.json`, and, when `s.json` is there, the atlas URL is
`b'/avatars/s/s.txt`, or the same with `.atlas.txt` when `s.txt` is not there
and `s.atlas.txt` is. -/
theorem manifest_urls (lowerTable : Char → Char) (stat : FileSystem) (dirs : List DirEntry)
    (b : Str) (e : ManifestEntry) (he : e ∈ scanAvatars lowerTable stat dirs b) :
    (TrimSuffixSlash b = [] →
      e.PreviewURL = [] ∧ e.BaseAtlasURL = [] ∧ e.BaseJSONURL = [] ∧ e.BasePNGURL = [] ∧
        e.CatalogURL = []) ∧
    (TrimSuffixSlash b ≠ [] →
      e.PreviewURL =
        TrimSuffixSlash b ++ "/avatars/".toList ++ e.Slug ++ "/".toList ++ e.Slug ++
          ".png".toList ∧
      e.BasePNGURL =
        TrimSuffixSlash b ++ "/avatars/".toList ++ e.Slug ++ "/".toList ++ e.Slug ++
          ".png".toList ∧
      e.BaseJSONURL =
        TrimSuffixSlash b ++ "/avatars/".toList ++ e.Slug ++ "/".toList ++ e.Slug ++
          ".json".toList ∧
      e.CatalogURL = TrimSuffixSlash b ++ "/catalog/".toList ++ e.Slug ++ ".json".toList ∧
      (stat e.Slug (e.Slug ++ ".json".toList) = true →
        e.BaseAtlasURL =
          if stat e.Slug (e.Slug ++ ".txt".toList) = false ∧
              stat e.Slug (e.Slug ++ ".atlas.txt".toList) = true then
            TrimSuffixSlash b ++ "/avatars/".toList ++ e.Slug ++ "/".toList ++ e.Slug ++
              ".atlas.txt".toList
          else
            TrimSuffixSlash b ++ "/avatars/".toList ++ e.Slug ++ "/".toList ++ e.Slug ++
              ".txt".toList)) := by
  unfold scanAvatars at he
  rcases mem_scanLoop _ _ _ _ _ _ _ _ _ he with h | ⟨d, _, t, k, hp, rfl⟩
  · cases h
  · rw [makeEntry_slug]
    constructor
    · intro hb
      unfold makeEntry
      rw [if_neg (by simpa using hb)]
      exact ⟨rfl, rfl, rfl, rfl, rfl⟩
    · intro hb
      unfold makeEntry
      rw [if_pos hb]
      simp only [assetsBase_slash, catalogBase_slash]
      refine ⟨trivial, trivial, trivial, trivial, ?_⟩
      intro hj
      rw [probeFiles_of_json stat d.Name hj] at hp
      cases hp
      rfl

/-- C17, amended, on the directory `nova` with `nova.json` and `nova.atlas.txt`
and without `nova.txt`, on the base URL `https://cdn.x/`. -/
theorem manifest_urls_witness :
    (scanAvatars (fun r => r)
        (fun _ file => decide (file = "nova.json".toList ∨ file = "nova.atlas.txt".toList))
        [⟨"nova".toList, true⟩] "https://cdn.x/".toList).map
      (fun e => (e.Slug, e.PreviewURL, e.BaseAtlasURL, e.CatalogURL)) =
      [("nova".toList, "https://cdn.x/avatars/nova/nova.png".toList,
        "https://cdn.x/avatars/nova/nova.atlas.txt".toList,
        "https://cdn.x/catalog/nova.json".toList)] ∧
    ("https://cdn.x/avatars/nova/nova.png".toList =
      TrimSuffixSlash "https://cdn.x/".toList ++ "/avatars/".toList ++ "nova".toList ++
        "/".toList ++ "nova".toList ++ ".png".toList) :=
  ⟨by decide,
    ((manifest_urls (fun r => r)
      (fun _ file => decide (file = "nova.json".toList ∨ file = "nova.atlas.txt".toList))
      [⟨"nova".toList, true⟩] "https://cdn.x/".toList
      ⟨"nova".toList, "Nova".toList, "https://cdn.x/avatars/nova/nova.png".toList,
        "https://cdn.x/avatars/nova/nova.atlas.txt".toList,
        "https://cdn.x/avatars/nova/nova.json".toList,
        "https://cdn.x/avatars/nova/nova.png".toList,
        "https://cdn.x/catalog/nova.json".toList, true, 1⟩ (by decide)).2 (by decide)).1⟩


/-! ## The catalog and the table -/

theorem keys_buildSubcategoryList_perm (lowerTable : Char → Char) (ρ : RangeOrder)
    (order : List Str) (all : Table) (slug previewBase : Str) (isAnimation : Bool)
    (hn : (keys all).Nodup) :
    ((buildSubcategoryList lowerTable ρ order all slug previewBase isAnimation).map
      subcategoryOut.Key).Perm (keys all) := by
  rw [keys_of_buildSubcategoryList]
  have hρ : (keys (ρ.order all)).Perm (keys all) := by
    unfold keys
    exact (ρ.perm all).map Prod.fst
  have hnd : (firstOccurrences (order.filter (fun k => decide (k ∈ keys all))) ++
      (keys (ρ.order all)).filter (fun k => decide (k ∉ order))).Nodup := by
    refine List.Nodup.append (firstOccurrences_nodup _) ((hρ.nodup_iff.2 hn).filter _) ?_
    intro x hx1 hx2
    rw [mem_firstOccurrences, List.mem_filter] at hx1
    rw [List.mem_filter] at hx2
    have : x ∉ order := by simpa using hx2.2
    exact this hx1.1
  rw [List.perm_ext_iff_of_nodup hnd hn]
  intro x
  rw [List.mem_append, mem_firstOccurrences, List.mem_filter, List.mem_filter, hρ.mem_iff]
  simp only [decide_eq_true_eq]
  constructor
  · rintro (h | h)
    · exact h.2
    · exact h.1
  · intro h
    by_cases ho : x ∈ order
    · exact Or.inl ⟨ho, h⟩
    · exact Or.inr ⟨h, ho⟩

theorem buildSubcategoryList_nil (lowerTable : Char → Char) (ρ : RangeOrder)
    (order : List Str) (slug previewBase : Str) (isAnimation : Bool) :
    buildSubcategoryList lowerTable ρ order [] slug previewBase isAnimation = [] := by
  have h := keys_buildSubcategoryList_perm lowerTable ρ order [] slug previewBase isAnimation
    List.nodup_nil
  have h2 := h.eq_nil
  exact List.map_eq_nil_iff.1 h2

theorem bucket_cons (lowerTable : Char → Char) (cat : Str) (e : Str × List Str) (T : Table) :
    bucket lowerTable cat (e :: T) =
      if topCategory lowerTable e.1 = cat then e :: bucket lowerTable cat T
      else bucket lowerTable cat T := by
  unfold bucket
  by_cases h : topCategory lowerTable e.1 = cat
  · rw [if_pos h, List.filter_cons_of_pos (by simpa using h)]
  · rw [if_neg h, List.filter_cons_of_neg (by simpa using h)]

theorem buckets_perm (lowerTable : Char → Char) (T : Table) :
    (keys (bucket lowerTable "body".toList T) ++ keys (bucket lowerTable "fashion".toList T) ++
      keys (bucket lowerTable "animation".toList T)).Perm (keys T) := by
  induction T with
  | nil => exact List.Perm.refl _
  | cons e rest ih =>
    have hm := topCategory_mem lowerTable e.1
    have hbf : ¬ ("body".toList = "fashion".toList) := by decide
    have hba : ¬ ("body".toList = "animation".toList) := by decide
    have hfb : ¬ ("fashion".toList = "body".toList) := by decide
    have hfa : ¬ ("fashion".toList = "animation".toList) := by decide
    have hab : ¬ ("animation".toList = "body".toList) := by decide
    have haf : ¬ ("animation".toList = "fashion".toList) := by decide
    simp only [List.mem_cons, List.mem_singleton, List.not_mem_nil, or_false] at hm
    rw [bucket_cons, bucket_cons, bucket_cons]
    have hk : keys (e :: rest) = e.1 :: keys rest := rfl
    rw [hk]
    rcases hm with hm | hm | hm
    · rw [hm, if_pos rfl, if_neg hbf, if_neg hba]
      exact List.Perm.cons _ ih
    · rw [hm, if_neg hfb, if_pos rfl, if_neg hfa]
      have hk2 : keys (e :: bucket lowerTable "fashion".toList rest) =
          e.1 :: keys (bucket lowerTable "fashion".toList rest) := rfl
      rw [hk2, List.append_assoc, List.cons_append]
      refine List.perm_middle.trans (List.Perm.cons _ ?_)
      rw [← List.append_assoc]
      exact ih
    · rw [hm, if_neg hab, if_neg haf, if_pos rfl]
      have hk2 : keys (e :: bucket lowerTable "animation".toList rest) =
          e.1 :: keys (bucket lowerTable "animation".toList rest) := rfl
      rw [hk2]
      exact List.perm_middle.trans (List.Perm.cons _ ih)

theorem catalog_subcategories_eq (lowerTable : Char → Char) (ρ : RangeOrder) (T : Table)
    (slug previewBase : Str) :
    (buildCategories lowerTable ρ T slug previewBase).flatMap categoryOut.Subcategories =
      buildSubcategoryList lowerTable ρ bodyOrder (bucket lowerTable "body".toList T) slug
          previewBase false ++
        buildSubcategoryList lowerTable ρ fashionOrder (bucket lowerTable "fashion".toList T)
          slug previewBase false ++
        buildSubcategoryList lowerTable ρ ["animation".toList]
          (bucket lowerTable "animation".toList T) slug previewBase true := by
  have hone : ∀ (key label : Str) (order : List Str) (B : Table) (isA : Bool),
      (if 0 < B.length then
        [({ Key := key, Label := label,
            Subcategories := buildSubcategoryList lowerTable ρ order B slug previewBase isA } :
          categoryOut)]
      else []).flatMap categoryOut.Subcategories =
        buildSubcategoryList lowerTable ρ order B slug previewBase isA := by
    intro key label order B isA
    by_cases hB : 0 < B.length
    · rw [if_pos hB, List.flatMap_cons, List.flatMap_nil, List.append_nil]
    · have : B = [] := List.length_eq_zero.1 (by omega)
      rw [if_neg hB, this, buildSubcategoryList_nil]
      rfl
  unfold buildCategories
  simp only []
  rw [List.flatMap_append, List.flatMap_append, hone, hone, hone]

theorem catalog_keys_perm (lowerTable : Char → Char) (ρ : RangeOrder) (T : Table)
    (slug previewBase : Str) (hn : (keys T).Nodup) :
    (((buildCategories lowerTable ρ T slug previewBase).flatMap
      categoryOut.Subcategories).map subcategoryOut.Key).Perm (keys T) := by
  rw [catalog_subcategories_eq, List.map_append, List.map_append]
  refine List.Perm.trans ?_ (buckets_perm lowerTable T)
  exact ((keys_buildSubcategoryList_perm _ _ _ _ _ _ _ (bucket_keys_nodup _ _ _ hn)).append
    (keys_buildSubcategoryList_perm _ _ _ _ _ _ _ (bucket_keys_nodup _ _ _ hn))).append
    (keys_buildSubcategoryList_perm _ _ _ _ _ _ _ (bucket_keys_nodup _ _ _ hn))

/-- C18.  The skin `animation/wave` is a taxonomy skin, and with the clip `idle`
it is lost: the table holds `idle` alone under `animation`, line 191 having
replaced the list the skin loop built, and no subcategory of the catalog has an
option other than `idle`.  A taxonomy skin is in the catalog, under its
subcategory, when its subcategory is not `animation` or when no clip is
kept. -/
theorem animation_skin_overwritten (lowerTable : Char → Char) (ρ : RangeOrder)
    (slug avatarName cdnBase : Str) :
    IsTaxonomySkin lowerTable "animation/wave".toList "animation".toList "wave".toList ∧
    buildTable lowerTable ⟨["animation/wave".toList], some ["idle".toList]⟩ =
      [("animation".toList, ["idle".toList])] ∧
    (∀ cat ∈ (buildCatalog lowerTable ρ ⟨["animation/wave".toList], some ["idle".toList]⟩
        slug avatarName cdnBase).Categories,
      ∀ sub ∈ cat.Subcategories, sub.Options.map optionOut.OptionID = ["idle".toList]) ∧
    (∀ (asset : spineAsset) (n sub opt : Str), n ∈ asset.Skins →
      IsTaxonomySkin lowerTable n sub opt →
      (sub ≠ "animation".toList ∨
        ∀ ks, asset.Animations = some ks →
          ∀ k ∈ ks, TrimSpace (ToLower lowerTable k) = "default".toList) →
      ∃ cat ∈ (buildCatalog lowerTable ρ asset slug avatarName cdnBase).Categories,
        cat.Key = topCategory lowerTable sub ∧
        ∃ s ∈ cat.Subcategories, s.Key = sub ∧ opt ∈ s.Options.map optionOut.OptionID) := by
  have hT : buildTable lowerTable ⟨["animation/wave".toList], some ["idle".toList]⟩ =
      [("animation".toList, ["idle".toList])] := rfl
  refine ⟨(parseSkin_eq_some_iff _ _ _ _).1 rfl, hT, ?_, ?_⟩
  · intro cat hcat sub hsub
    have h := (catalog_subcategory_ids _ _ _ _ _ _ cat sub hcat hsub).1
    rw [hT, List.mem_singleton] at h
    exact (Prod.mk.inj h).2
  · intro asset n sub opt hn ht hor
    have hp := (parseSkin_eq_some_iff _ _ _ _).2 ht
    have hkey : sub ∈ keys (buildTable lowerTable asset) :=
      (mem_keys_buildTable lowerTable asset sub).2 (Or.inl ⟨n, hn, opt, hp⟩)
    have hskin : opt ∈ optionsOf (skinTable lowerTable asset.Skins) sub := by
      unfold skinTable
      rw [mem_optionsOf_foldl_skinStep]
      exact Or.inr ⟨n, hn, hp⟩
    have hopt : opt ∈ optionsOf (buildTable lowerTable asset) sub := by
      rw [optionsOf_buildTable, (sortStrings_perm _).mem_iff]
      cases hanim : asset.Animations with
      | none => exact hskin
      | some ks =>
        simp only []
        rw [if_neg]
        · exact hskin
        · rintro ⟨hs, hne⟩
          rcases hor with hor | hor
          · exact hor hs
          · exact hne ((animOpts_eq_nil_iff lowerTable ks).2 (hor ks hanim))
    have hl : (buildTable lowerTable asset).lookup sub =
        some (optionsOf (buildTable lowerTable asset) sub) := by
      rw [lookup_eq_ite, if_pos hkey]
    obtain ⟨cat, hcat, hck, hs⟩ := (mem_catalog_subcategory_iff lowerTable ρ
      (buildTable lowerTable asset) slug (previewBaseOf slug cdnBase)
      (buildTable_keys_nodup _ _) (topCategory lowerTable sub) _).2 ⟨sub, _, hl, rfl, rfl⟩
    refine ⟨cat, hcat, hck, _, hs, rfl, ?_⟩
    have hid : (renderSubcategory lowerTable slug (previewBaseOf slug cdnBase)
        (decide (topCategory lowerTable sub = "animation".toList)) sub
        (optionsOf (buildTable lowerTable asset) sub)).Options.map optionOut.OptionID =
        optionsOf (buildTable lowerTable asset) sub := renderOptionsFrom_map_id _ _ _ _ _ _ 0
    rw [hid]
    exact hopt

/-- C19.  The keys of the subcategories of the catalog, all categories taken
together, are a permutation of the keys of the table and repeat no key, so
every key of the table is the key of exactly one subcategory and no other key
occurs; a subcategory
stands under the category `topCategory` gives to its key and has the option ids
the table holds for its key; and every entry of the table is rendered so. -/
theorem catalog_partition (lowerTable : Char → Char) (ρ : RangeOrder) (asset : spineAsset)
    (slug avatarName cdnBase : Str) :
    (((buildCatalog lowerTable ρ asset slug avatarName cdnBase).Categories.flatMap
      categoryOut.Subcategories).map subcategoryOut.Key).Perm
        (keys (buildTable lowerTable asset)) ∧
    (((buildCatalog lowerTable ρ asset slug avatarName cdnBase).Categories.flatMap
      categoryOut.Subcategories).map subcategoryOut.Key).Nodup ∧
    (∀ cat ∈ (buildCatalog lowerTable ρ asset slug avatarName cdnBase).Categories,
      ∀ sub ∈ cat.Subcategories,
        sub.Key ∈ keys (buildTable lowerTable asset) ∧
        cat.Key = topCategory lowerTable sub.Key ∧
        (buildTable lowerTable asset).lookup sub.Key =
          some (sub.Options.map optionOut.OptionID)) ∧
    (∀ k opts, (buildTable lowerTable asset).lookup k = some opts →
      ∃ cat ∈ (buildCatalog lowerTable ρ asset slug avatarName cdnBase).Categories,
        cat.Key = topCategory lowerTable k ∧
        ∃ sub ∈ cat.Subcategories, sub.Key = k ∧
          sub.Options.map optionOut.OptionID = opts) := by
  have hn := buildTable_keys_nodup lowerTable asset
  have hperm := catalog_keys_perm lowerTable ρ (buildTable lowerTable asset) slug
    (previewBaseOf slug cdnBase) hn
  refine ⟨hperm, ?_, ?_, ?_⟩
  · exact hperm.nodup_iff.2 hn
  · intro cat hcat sub hsub
    obtain ⟨k, opts, hmem, htop, rfl⟩ := mem_catalog_subcategory _ _ _ _ _ _ _ hcat hsub
    have hid : (renderSubcategory lowerTable slug (previewBaseOf slug cdnBase)
        (decide (cat.Key = "animation".toList)) k opts).Options.map optionOut.OptionID = opts :=
      renderOptionsFrom_map_id _ _ _ _ _ _ 0
    rw [hid, renderSubcategory_key]
    exact ⟨List.mem_map.2 ⟨(k, opts), hmem, rfl⟩, htop.symm,
      lookup_eq_some_of_mem _ _ _ hn hmem⟩
  · intro k opts hl
    obtain ⟨cat, hcat, hck, hs⟩ := (mem_catalog_subcategory_iff lowerTable ρ
      (buildTable lowerTable asset) slug (previewBaseOf slug cdnBase) hn
      (topCategory lowerTable k) _).2 ⟨k, opts, hl, rfl, rfl⟩
    exact ⟨cat, hcat, hck, _, hs, rfl, renderOptionsFrom_map_id _ _ _ _ _ _ 0⟩


/-! ## Preview URLs and skin names do not collide -/

theorem digitChar_value : ∀ d, d < 10 → (Nat.digitChar d).toNat - 48 = d := by
  decide

theorem toDigitsCore_value (fuel : Nat) :
    ∀ (n : Nat) (ds : List Char), n < fuel →
      (Nat.toDigitsCore 10 fuel n ds).foldl (fun a c => a * 10 + (c.toNat - 48)) 0 =
        ds.foldl (fun a c => a * 10 + (c.toNat - 48)) n := by
  induction fuel with
  | zero => intro n ds h; omega
  | succ fuel ih =>
    intro n ds h
    have hd := digitChar_value (n % 10) (Nat.mod_lt _ (by omega))
    unfold Nat.toDigitsCore
    simp only []
    split_ifs with h0
    · rw [List.foldl_cons, hd]
      have : n % 10 = n := Nat.mod_eq_of_lt (by omega)
      rw [Nat.zero_mul, Nat.zero_add, this]
    · rw [ih (n / 10) _ (by omega), List.foldl_cons, hd]
      have : n / 10 * 10 + n % 10 = n := by omega
      rw [this]

theorem decimalValue_decimal (n : Nat) : decimalValue (decimal n) = n := by
  unfold decimalValue decimal Nat.toDigits
  rw [toDigitsCore_value (n + 1) n [] (by omega)]
  rfl

theorem decimal_injective (a b : Nat) (h : decimal a = decimal b) : a = b := by
  have := congrArg decimalValue h
  rwa [decimalValue_decimal, decimalValue_decimal] at this

theorem mem_of_mem_TrimSpace (s : Str) (c : Char) (h : c ∈ TrimSpace s) : c ∈ s := by
  unfold TrimSpace at h
  exact (List.dropWhile_suffix isSpace).subset ((List.rdropWhile_prefix isSpace _).subset h)

theorem no_slash_of_taxonomySkin (lowerTable : Char → Char) (n sub opt : Str)
    (h : IsTaxonomySkin lowerTable n sub opt) : '/' ∉ sub := by
  obtain ⟨_, _, pre, post, _, hpre, rfl, _⟩ := h
  exact fun hm => hpre (mem_of_mem_TrimSpace pre _ hm)

theorem no_slash_of_mem_keys (lowerTable : Char → Char) (asset : spineAsset) (k : Str)
    (h : k ∈ keys (buildTable lowerTable asset)) : '/' ∉ k := by
  rcases (mem_keys_buildTable lowerTable asset k).1 h with ⟨n, _, opt, hp⟩ | ⟨rfl, _⟩
  · exact no_slash_of_taxonomySkin lowerTable n k opt ((parseSkin_eq_some_iff _ _ _ _).1 hp)
  · decide

theorem slash_join_injective (k₁ k₂ x₁ x₂ : Str) (h₁ : '/' ∉ k₁) (h₂ : '/' ∉ k₂)
    (h : k₁ ++ '/' :: x₁ = k₂ ++ '/' :: x₂) : k₁ = k₂ ∧ x₁ = x₂ := by
  have u₁ := split_first_slash_unique k₁ x₁ h₁
  have u₂ := split_first_slash_unique k₂ x₂ h₂
  rw [h] at u₁
  exact ⟨u₁.1.symm.trans u₂.1, u₁.2.symm.trans u₂.2⟩

theorem skinName_eq (lowerTable : Char → Char) (k slug previewBase : Str) (i : Nat)
    (oid : Str) :
    (renderOption lowerTable k slug previewBase false i oid).SkinName = k ++ '/' :: oid := by
  simp only [renderOption, Bool.not_false, if_true, List.append_assoc]
  rfl

theorem previewURL_eq (lowerTable : Char → Char) (k slug previewBase : Str) (i : Nat)
    (oid : Str) :
    (renderOption lowerTable k slug previewBase false i oid).PreviewURL =
      (if previewBase ≠ [] then previewBase ++ "/".toList
        else "catalog/".toList ++ slug ++ "/".toList) ++
        (k ++ '/' :: ((if previewBase ≠ [] then oid else decimal (i + 1)) ++
          ".webp".toList)) := by
  simp only [renderOption, Bool.not_false, if_true]
  split_ifs
  · simp only [List.append_assoc]
    rfl
  · simp only [List.append_assoc]
    rfl

/-- C20.  Two options of the categories other than `animation` that differ in
the key of their subcategory or in their option id have different preview URLs
and different skin names, with or without a CDN base; the keys of the
subcategories hold no `/`. -/
theorem preview_urls_distinct (lowerTable : Char → Char) (ρ : RangeOrder) (asset : spineAsset)
    (slug avatarName cdnBase : Str) (cat₁ cat₂ : categoryOut) (sub₁ sub₂ : subcategoryOut)
    (o₁ o₂ : optionOut)
    (hc₁ : cat₁ ∈ (buildCatalog lowerTable ρ asset slug avatarName cdnBase).Categories)
    (hc₂ : cat₂ ∈ (buildCatalog lowerTable ρ asset slug avatarName cdnBase).Categories)
    (hk₁ : cat₁.Key ≠ "animation".toList) (hk₂ : cat₂.Key ≠ "animation".toList)
    (hs₁ : sub₁ ∈ cat₁.Subcategories) (hs₂ : sub₂ ∈ cat₂.Subcategories)
    (ho₁ : o₁ ∈ sub₁.Options) (ho₂ : o₂ ∈ sub₂.Options)
    (hne : sub₁.Key ≠ sub₂.Key ∨ o₁.OptionID ≠ o₂.OptionID) :
    o₁.PreviewURL ≠ o₂.PreviewURL ∧ o₁.SkinName ≠ o₂.SkinName ∧
      '/' ∉ sub₁.Key ∧ '/' ∉ sub₂.Key := by
  obtain ⟨k₁, opts₁, hm₁, _, rfl⟩ := mem_catalog_subcategory _ _ _ _ _ _ _ hc₁ hs₁
  obtain ⟨k₂, opts₂, hm₂, _, rfl⟩ := mem_catalog_subcategory _ _ _ _ _ _ _ hc₂ hs₂
  have hf₁ : decide (cat₁.Key = "animation".toList) = false := by simpa using hk₁
  have hf₂ : decide (cat₂.Key = "animation".toList) = false := by simpa using hk₂
  rw [hf₁] at ho₁ hne
  rw [hf₂] at ho₂ hne
  rw [hf₁, hf₂]
  simp only [renderSubcategory] at ho₁ ho₂ hne ⊢
  obtain ⟨j₁, oid₁, hj₁, rfl⟩ := mem_renderOptionsFrom _ _ _ _ _ _ _ _ ho₁
  obtain ⟨j₂, oid₂, hj₂, rfl⟩ := mem_renderOptionsFrom _ _ _ _ _ _ _ _ ho₂
  have hn := buildTable_keys_nodup lowerTable asset
  have hsl₁ : '/' ∉ k₁ := no_slash_of_mem_keys lowerTable asset k₁
    (List.mem_map.2 ⟨(k₁, opts₁), hm₁, rfl⟩)
  have hsl₂ : '/' ∉ k₂ := no_slash_of_mem_keys lowerTable asset k₂
    (List.mem_map.2 ⟨(k₂, opts₂), hm₂, rfl⟩)
  have hid₁ : (renderOption lowerTable k₁ slug (previewBaseOf slug cdnBase) false (0 + j₁)
      oid₁).OptionID = oid₁ := rfl
  have hid₂ : (renderOption lowerTable k₂ slug (previewBaseOf slug cdnBase) false (0 + j₂)
      oid₂).OptionID = oid₂ := rfl
  rw [hid₁, hid₂] at hne
  refine ⟨?_, ?_, hsl₁, hsl₂⟩
  · rw [previewURL_eq, previewURL_eq]
    intro h
    have h2 := slash_join_injective _ _ _ _ hsl₁ hsl₂ (List.append_cancel_left h)
    have hk : k₁ = k₂ := h2.1
    subst hk
    have hx := List.append_cancel_right h2.2
    rcases hne with hne | hne
    · exact hne rfl
    · apply hne
      split_ifs at hx with hpb
      · exact hx
      · have hj : j₁ = j₂ := by
          have := decimal_injective _ _ hx
          omega
        subst hj
        have ho : opts₁ = opts₂ :=
          (optionsOf_eq_of_mem _ hn _ _ hm₁).symm.trans (optionsOf_eq_of_mem _ hn _ _ hm₂)
        subst ho
        rw [hj₁] at hj₂
        exact Option.some.inj hj₂
  · rw [skinName_eq, skinName_eq]
    intro h
    have h2 := slash_join_injective _ _ _ _ hsl₁ hsl₂ h
    rcases hne with hne | hne
    · exact hne h2.1
    · exact hne h2.2

/-- C20 on slug `nova` with the skins `eyes/blue` and `eyes/green`, without a
CDN base: the two options of `eyes` have the preview URLs
`catalog/nova/eyes/1.webp` and `catalog/nova/eyes/2.webp`. -/
theorem preview_urls_distinct_witness :
    (buildCatalog (fun r => r) RangeOrder.stored
        ⟨["eyes/blue".toList, "eyes/green".toList], none⟩ "nova".toList "Nova".toList
        []).Categories =
      [⟨"body".toList, "Body".toList,
        [⟨"eyes".toList, "eyes".toList,
          [⟨"blue".toList, "Blue".toList, "eyes/blue".toList,
              "catalog/nova/eyes/1.webp".toList⟩,
            ⟨"green".toList, "Green".toList, "eyes/green".toList,
              "catalog/nova/eyes/2.webp".toList⟩]⟩]⟩] ∧
    "catalog/nova/eyes/1.webp".toList ≠ "catalog/nova/eyes/2.webp".toList :=
  ⟨by decide,
    (preview_urls_distinct (fun r => r) RangeOrder.stored
      ⟨["eyes/blue".toList, "eyes/green".toList], none⟩ "nova".toList "Nova".toList []
      ⟨"body".toList, "Body".toList,
        [⟨"eyes".toList, "eyes".toList,
          [⟨"blue".toList, "Blue".toList, "eyes/blue".toList,
              "catalog/nova/eyes/1.webp".toList⟩,
            ⟨"green".toList, "Green".toList, "eyes/green".toList,
              "catalog/nova/eyes/2.webp".toList⟩]⟩]⟩
      ⟨"body".toList, "Body".toList,
        [⟨"eyes".toList, "eyes".toList,
          [⟨"blue".toList, "Blue".toList, "eyes/blue".toList,
              "catalog/nova/eyes/1.webp".toList⟩,
            ⟨"green".toList, "Green".toList, "eyes/green".toList,
              "catalog/nova/eyes/2.webp".toList⟩]⟩]⟩
      ⟨"eyes".toList, "eyes".toList,
        [⟨"blue".toList, "Blue".toList, "eyes/blue".toList, "catalog/nova/eyes/1.webp".toList⟩,
          ⟨"green".toList, "Green".toList, "eyes/green".toList,
            "catalog/nova/eyes/2.webp".toList⟩]⟩
      ⟨"eyes".toList, "eyes".toList,
        [⟨"blue".toList, "Blue".toList, "eyes/blue".toList, "catalog/nova/eyes/1.webp".toList⟩,
          ⟨"green".toList, "Green".toList, "eyes/green".toList,
            "catalog/nova/eyes/2.webp".toList⟩]⟩
      ⟨"blue".toList, "Blue".toList, "eyes/blue".toList, "catalog/nova/eyes/1.webp".toList⟩
      ⟨"green".toList, "Green".toList, "eyes/green".toList, "catalog/nova/eyes/2.webp".toList⟩
      (by decide) (by decide) (by decide) (by decide) (by decide) (by decide) (by decide)
      (by decide) (Or.inr (by decide))).1⟩


end KalpixAvatars
